import Mathlib

/-!
Verification development for the `mpnum.mparray` module: matrix product
arrays (MPAs) represented as chains of local tensors.

Dense numpy arrays are embedded as a shape (list of axis sizes) together
with a flat, row-major data function `ℕ → ℚ`; only indices below the
product of the shape are meaningful.  Reshaping a numpy array keeps the
flat buffer, so reshapes are modelled by changing only the shape.
Fallible operations (assertions, exceptions) are modelled with `Except`.
The external linear-algebra collaborators (QR, SVD) are parameters of the
definitions that use them.
-/

/-- Flat row-major buffer of a dense array. -/
abbrev Vec := ℕ → ℚ

/-- Sum of the first `n` values of `f` (used for contractions). -/
def sumf : ℕ → (ℕ → ℚ) → ℚ
  | 0, _ => 0
  | n + 1, f => sumf n f + f n

/-- Flat data of the matrix product of an `(· × K)` matrix `A` with a
`(K × N)` matrix `B`: entry at flat index `x = i * N + j` is
`A (i * K + t) * B (t * N + j)` summed over `t < K`. -/
def mmul (K N : ℕ) (A B : Vec) : Vec :=
  fun x => sumf K (fun t => A (x / N * K + t) * B (t * N + x % N))

/-- A dense multi-dimensional array: shape plus flat row-major data. -/
structure Tensor where
  shape : List ℕ
  data : Vec

/-- Modelled from the spec: `mpnum._tools.matdot` (the module `_tools` is
not part of the sources).  Per the spec's required collaborator, it is the
tensordot-equivalent contraction of the last axis of the first argument
with the first axis of the second; the result shape is
`a.shape[:-1] + b.shape[1:]` and the data is the flat matrix product. -/
def matdot (a b : Tensor) : Tensor :=
  ⟨a.shape.dropLast ++ b.shape.tail,
   mmul (b.shape.headD 0) b.shape.tail.prod a.data b.data⟩

/-- `t[0, ..., 0]`: fix the first and the last index of `t` to zero
(used by `_ltens_to_array` to strip the two dummy boundary legs). -/
def index00 (t : Tensor) : Tensor :=
  ⟨t.shape.tail.dropLast, fun x => t.data (x * t.shape.getLastD 1)⟩

/-- Observational equality of dense arrays: same shape, same data at all
in-range flat indices (out-of-range data is junk in this embedding). -/
def Tensor.Eqv (a b : Tensor) : Prop :=
  a.shape = b.shape ∧ ∀ x < a.shape.prod, a.data x = b.data x

/-- `_ltens_to_array`: contract an MPA chain (nonempty list of local
tensors) to the represented dense array via repeated `matdot`, then strip
the two boundary legs. -/
def ltensToArray (ts : List Tensor) : Option Tensor :=
  match ts with
  | [] => none
  | t :: rest => some (index00 (rest.foldl matdot t))

/-- Python's `x or d` for the optional normalization attributes: `None`
and `0` are falsy and give the default. -/
def pyOr (o : Option ℕ) (d : ℕ) : ℕ :=
  match o with
  | none => d
  | some v => if v = 0 then d else v

/-- The MPA container: list of local tensors plus the two protected
normalization attributes (`None` when unknown). -/
structure MPArray where
  ltens : List Tensor
  lnormalized : Option ℕ
  rnormalized : Option ℕ

/-- Chain length `len(self)`. -/
def MPArray.len (s : MPArray) : ℕ := s.ltens.length

/-- `normal_form` property: `(self._lnormalized or 0,
self._rnormalized or len(self))`. -/
def MPArray.normalForm (s : MPArray) : ℕ × ℕ :=
  (pyOr s.lnormalized 0, pyOr s.rnormalized s.len)

/-- `bdims` property: leading axis size of every local tensor but the
first. -/
def MPArray.bdims (s : MPArray) : List ℕ :=
  (s.ltens.drop 1).map (fun t => t.shape.headD 0)

/-- The constructor's pairwise scan over `zip(ltens[:-1], ltens[1:])`:
first junction `i` where `ltens[i].shape[-1] != ltens[i+1].shape[0]`,
together with the two mismatched sizes. -/
def firstMismatch : List Tensor → Option (ℕ × ℕ × ℕ)
  | [] => none
  | [_] => none
  | a :: b :: rest =>
    if a.shape.getLastD 0 ≠ b.shape.headD 0 then
      some (0, a.shape.getLastD 0, b.shape.headD 0)
    else
      (firstMismatch (b :: rest)).map (fun e => (e.1 + 1, e.2))

/-- `MPArray.__init__`: validate the bond-dimension adjacency invariant
pairwise, raising `ValueError("Shape mismatch on i: x != y")` on the
first offending junction, before any state is stored; on success store
the tensors and the optional normalization overrides. -/
def initMPA (lt : List Tensor) (ln rn : Option ℕ) :
    Except (ℕ × ℕ × ℕ) MPArray :=
  match firstMismatch lt with
  | some e => .error e
  | none => .ok ⟨lt, ln, rn⟩

/-- Multiply every entry of a local tensor by a scalar. -/
def scale (c : ℚ) (t : Tensor) : Tensor := ⟨t.shape, fun i => c * t.data i⟩

/-- A Python value passed to the arithmetic operators: either a scalar
(`np.isscalar` true) or some non-scalar object. -/
inductive PyVal where
  | scalar (c : ℚ)
  | nonscalar

/-- `MPArray.__mul__`: for a scalar, rebuild the tensor list with the
tensor at the current left-normalization boundary scaled
(`ltens[:lnormal] + [fact * ltens[lnormal]] + ltens[lnormal+1:]`),
keeping the reported normalization pair; indexing an empty slot raises
`IndexError`; a non-scalar raises `NotImplementedError`. -/
def MPArray.mul (s : MPArray) (fact : PyVal) : Except String MPArray :=
  match fact with
  | .scalar c =>
    let ln := s.normalForm.1
    let rn := s.normalForm.2
    match s.ltens.get? ln with
    | none => .error "IndexError"
    | some t =>
      .ok ⟨s.ltens.take ln ++ [scale c t] ++ s.ltens.drop (ln + 1),
           some ln, some rn⟩
  | .nonscalar => .error "NotImplementedError"

/-- `MPArray.__imul__`: in-place variant; scales `ltens[lnormal]` and
leaves the normalization attributes untouched. -/
def MPArray.imul (s : MPArray) (fact : PyVal) : Except String MPArray :=
  match fact with
  | .scalar c =>
    let ln := s.normalForm.1
    match s.ltens.get? ln with
    | none => .error "IndexError"
    | some t =>
      .ok ⟨s.ltens.set ln (scale c t), s.lnormalized, s.rnormalized⟩
  | .nonscalar => .error "NotImplementedError"

/-- Placeholder local tensor used for out-of-range list access; all list
indices used by the algorithms are in range in the verified scenarios. -/
def junkT : Tensor := ⟨[], fun _ => 0⟩

/-- An external QR routine (required collaborator): given an `m × n`
matrix it returns the flat data of the two factors `q` (`m × min m n`)
and `r` (`min m n × n`) of numpy's reduced QR decomposition. -/
abbrev QRFun := ℕ → ℕ → Vec → Vec × Vec

/-- The only property of QR the round-trip theorems use: it is an exact
factorization, `matrix = q * r`, at every in-range entry. -/
def QRSpec (qr : QRFun) : Prop :=
  ∀ m n d, ∀ i < m, ∀ j < n,
    d (i * n + j) =
      sumf (min m n) (fun t =>
        (qr m n d).1 (i * min m n + t) * (qr m n d).2 (t * n + j))

/-- An external SVD routine (required collaborator): numpy's
`svd(matrix)` with `full_matrices=True`; for an `m × n` input it returns
`u` (`m × m`), the singular values (a vector of length `min m n`) and
`v` (`n × n`). -/
abbrev SVDFun := ℕ → ℕ → Vec → Vec × Vec × Vec

/-- Modelled from the spec: `mpnum._tools.norm_2` (the module `_tools`
is not part of the sources), the Euclidean norm of a vector, applied to
the first `n` entries of a flat buffer.  Its exact values are irrational,
so it is kept as a parameter valued in an arbitrary linear ordered field;
`Norm2Spec` states the facts the compression claims rely on. -/
abbrev Norm2Fun (α : Type) := Vec → ℕ → α

/-- The Euclidean norm is nonnegative, and the norm of an empty vector
is zero. -/
def Norm2Spec {α : Type} [LinearOrderedField α] (norm2 : Norm2Fun α) : Prop :=
  (∀ d n, 0 ≤ norm2 d n) ∧ (∀ d, norm2 d 0 = 0)

/-- Flat data of the transpose of a `rows × cols` matrix (the result is
a `cols × rows` matrix). -/
def transposeData (rows cols : ℕ) (d : Vec) : Vec :=
  fun z => d ((z % rows) * cols + z / rows)

/-- A Python `for` loop threading a state where each iteration may
raise: fold the step over the site list, propagating the first
error. -/
def exFold {σ : Type} (f : σ → ℕ → Except String σ) :
    List ℕ → σ → Except String σ
  | [], st => .ok st
  | a :: rest, st =>
    match f st a with
    | .error e => .error e
    | .ok st2 => exFold f rest st2

/-- One step of the left-normalization sweep of `_lnormalize`: QR-factor
`ltens[site]` reshaped to `(prod(shape[:-1]), shape[-1])`, write the
orthonormal factor back in place (shape kept, `[:]` assignment), and
absorb `matdot(triangle, ltens[site+1])` into the next site in place.
The write-back `unitary.reshape(ltens.shape)` raises `ValueError` when
the last axis exceeds the product of the others (`n > m`): the reduced
factor `q` is `m x min(m, n)` and cannot fill the old shape (for
`m = 0 < n` the reshape itself passes but the in-place absorption then
fails to broadcast, so the step still raises). -/
def lnormStep (qr : QRFun) (lt : List Tensor) (site : ℕ) :
    Except String (List Tensor) :=
  let t := lt.getD site junkT
  let m := t.shape.dropLast.prod
  let n := t.shape.getLastD 0
  if n ≤ m then
    let qrres := qr m n t.data
    let lt1 := lt.set site ⟨t.shape, qrres.1⟩
    let nxt := lt1.getD (site + 1) junkT
    .ok (lt1.set (site + 1)
      ⟨nxt.shape, (matdot ⟨[min m n, n], qrres.2⟩ nxt).data⟩)
  else .error "ValueError: reshape"

/-- `MPArray._lnormalize(to_site)`: assert `to_site < len(self)`, sweep
sites `lnormal, ..., to_site - 1` (each step may raise), then record
`_lnormalized = to_site`, `_rnormalized = max(to_site + 1, rnormal)`. -/
def MPArray.lnormalize (qr : QRFun) (s : MPArray) (toSite : ℕ) :
    Except String MPArray :=
  if toSite < s.len then
    (exFold (lnormStep qr)
        (List.range' s.normalForm.1 (toSite - s.normalForm.1)) s.ltens).map
      (fun lt => ⟨lt, some toSite, some (max (toSite + 1) s.normalForm.2)⟩)
  else .error "AssertionError: lnormalize"

/-- One step of the right-normalization sweep of `_rnormalize`:
QR-factor the transpose of `ltens[site]` reshaped to
`(shape[0], prod(shape[1:]))`, write `q.T` back in place, and absorb
`matdot(ltens[site-1], r.T)` into the previous site in place.  The
mirror of `lnormStep`'s failure: `q.T.reshape(ltens.shape)` raises
`ValueError` when `shape[0] > prod(shape[1:])`. -/
def rnormStep (qr : QRFun) (lt : List Tensor) (site : ℕ) :
    Except String (List Tensor) :=
  let t := lt.getD site junkT
  let rdim := t.shape.headD 0
  let cdim := t.shape.tail.prod
  if rdim ≤ cdim then
    let qrres := qr cdim rdim (transposeData rdim cdim t.data)
    let k := min cdim rdim
    let lt1 := lt.set site ⟨t.shape, transposeData cdim k qrres.1⟩
    let prv := lt1.getD (site - 1) junkT
    .ok (lt1.set (site - 1)
      ⟨prv.shape, (matdot prv ⟨[rdim, k], transposeData k rdim qrres.2⟩).data⟩)
  else .error "ValueError: reshape"

/-- `MPArray._rnormalize(to_site)`: assert `to_site > 0`, sweep sites
`rnormal - 1` down to `to_site` (each step may raise), then record
`_rnormalized = to_site`, `_lnormalized = min(to_site - 1, lnormal)`. -/
def MPArray.rnormalize (qr : QRFun) (s : MPArray) (toSite : ℕ) :
    Except String MPArray :=
  if 0 < toSite then
    (exFold (rnormStep qr)
        ((List.range' toSite (s.normalForm.2 - toSite)).reverse)
        s.ltens).map
      (fun lt => ⟨lt, some (min (toSite - 1) s.normalForm.1),
                  some toSite⟩)
  else .error "AssertionError: rnormalize"

/-- `MPArray.normalize(**kwargs)`: with neither keyword, fully
left-normalize; otherwise read `left` (default 0) and `right` (default
`len(self)`), assert `left < right`, and run the two sweeps only where
the current `normal_form`, read once up front, is not yet normalized
enough. -/
def MPArray.normalizeKw (qr : QRFun) (s : MPArray)
    (left right : Option ℕ) : Except String MPArray :=
  match left, right with
  | none, none => s.lnormalize qr (s.len - 1)
  | _, _ =>
    let lt := left.getD 0
    let rt := right.getD s.len
    if lt < rt then
      let cur := s.normalForm
      match (if cur.1 < lt then s.lnormalize qr lt else .ok s) with
      | .error e => .error e
      | .ok s1 => if cur.2 > rt then s1.rnormalize qr rt else .ok s1
    else .error "AssertionError: normalize"

/-- Flat data of the column slice `d[:, :keep]` of a `rows × cols`
matrix (numpy clamps the slice bound, so the result has
`min cols keep` columns). -/
def colSlice (cols keep : ℕ) (d : Vec) : Vec :=
  fun z => d (z / min cols keep * cols + z % min cols keep)

/-- One iteration of the `_compress_svd_r` loop at `site`: SVD of
`ltens[site]` reshaped to `(prod(shape[:-1]), shape[-1])`, keep at most
`max_bdim` columns of `u` (plain assignment, so the shape changes),
absorb `sv * v` into the next site, and add the relative truncation
error term.  The write-back `u[:, :max_bdim].reshape(newshape)` raises
`ValueError` when `min(m, max_bdim) != min(n, max_bdim)` (the sliced
full-matrices factor has `m * min(m, max_bdim)` entries, the target
shape `m * min(n, max_bdim)`).  The error term is the float
`norm_2(sv[max_bdim:]) / norm_2(sv)`, which in Python is `0.0 / 0.0 =
nan` on an all-zero singular spectrum (`norm_2` is a genuine norm, so
a zero denominator forces a zero numerator); the accumulator is kept
as `Option`, `none` standing for the absorbing `nan`. -/
def rSweepStep {α : Type} [LinearOrderedField α] (svd : SVDFun)
    (norm2 : Norm2Fun α) (maxBdim : ℕ) (acc : List Tensor × Option α)
    (site : ℕ) : Except String (List Tensor × Option α) :=
  let lt := acc.1
  let t := lt.getD site junkT
  let m := t.shape.dropLast.prod
  let n := t.shape.getLastD 0
  if min m maxBdim = min n maxBdim then
    let sres := svd m n t.data
    let k := min m n
    let lt1 := lt.set site
      ⟨t.shape.dropLast ++ [min n maxBdim], colSlice m maxBdim sres.1⟩
    let w : Tensor := ⟨[min k maxBdim, n],
      fun z => sres.2.1 (z / n) * sres.2.2 z⟩
    let lt2 := lt1.set (site + 1) (matdot w (lt1.getD (site + 1) junkT))
    .ok (lt2, match acc.2 with
      | none => none
      | some e =>
        if norm2 sres.2.1 k = 0 then none
        else some (e +
          norm2 (fun i => sres.2.1 (maxBdim + i)) (k - maxBdim)
            / norm2 sres.2.1 k))
  else .error "ValueError: reshape"

/-- `MPArray._compress_svd_r(max_bdim)`: assert `normal_form == (0, 1)`,
sweep sites `0, ..., len - 2` left to right truncating each SVD to at
most `max_bdim` singular values (each step may raise), absorb `sv * v`
into the next site, accumulate the relative truncation error, and end
fully left-normalized. -/
def MPArray.compressSvdR {α : Type} [LinearOrderedField α] (svd : SVDFun)
    (norm2 : Norm2Fun α) (maxBdim : ℕ) (s : MPArray) :
    Except String (MPArray × Option α) :=
  if s.normalForm = (0, 1) then
    (exFold (rSweepStep svd norm2 maxBdim) (List.range (s.len - 1))
        (s.ltens, some 0)).map
      (fun res => (⟨res.1, some (s.len - 1), some s.len⟩, res.2))
  else .error "AssertionError: compress svd r"

/-- One iteration of the `_compress_svd_l` loop at `site`: SVD of
`ltens[site]` reshaped to `(shape[0], prod(shape[1:]))`, keep at most
`max_bdim` rows of `v`, absorb `u * sv` into the previous site, and add
the relative truncation error term.  Mirror of `rSweepStep`'s failure:
`v[:max_bdim, :].reshape(newshape)` raises `ValueError` when
`min(m, max_bdim) != min(n, max_bdim)`, and the `nan` ratio on an
all-zero singular spectrum is the absorbing `none`. -/
def lSweepStep {α : Type} [LinearOrderedField α] (svd : SVDFun)
    (norm2 : Norm2Fun α) (maxBdim : ℕ) (acc : List Tensor × Option α)
    (site : ℕ) : Except String (List Tensor × Option α) :=
  let lt := acc.1
  let t := lt.getD site junkT
  let m := t.shape.headD 0
  let n := t.shape.tail.prod
  if min m maxBdim = min n maxBdim then
    let sres := svd m n t.data
    let k := min m n
    let lt1 := lt.set site ⟨min m maxBdim :: t.shape.tail, sres.2.2⟩
    let w : Tensor := ⟨[m, min m maxBdim],
      fun z => colSlice m maxBdim sres.1 z * sres.2.1 (z % min m maxBdim)⟩
    let lt2 := lt1.set (site - 1) (matdot (lt1.getD (site - 1) junkT) w)
    .ok (lt2, match acc.2 with
      | none => none
      | some e =>
        if norm2 sres.2.1 k = 0 then none
        else some (e +
          norm2 (fun i => sres.2.1 (maxBdim + i)) (k - maxBdim)
            / norm2 sres.2.1 k))
  else .error "ValueError: reshape"

/-- `MPArray._compress_svd_l(max_bdim)`: the mirror sweep, sites
`len - 1` down to `1`, ending fully right-normalized. -/
def MPArray.compressSvdL {α : Type} [LinearOrderedField α] (svd : SVDFun)
    (norm2 : Norm2Fun α) (maxBdim : ℕ) (s : MPArray) :
    Except String (MPArray × Option α) :=
  if s.normalForm = (s.len - 1, s.len) then
    (exFold (lSweepStep svd norm2 maxBdim)
        ((List.range' 1 (s.len - 1)).reverse) (s.ltens, some 0)).map
      (fun res => (⟨res.1, some 0, some 1⟩, res.2))
  else .error "AssertionError: compress svd l"

/-- The default sweep direction of `compress` for `method='svd'`:
`'left' if len(self) - rn > ln else 'right'` on the current
`normal_form` (note `len - rn` cannot be negative here since the
reported `rn` is at most... it is compared as Python ints; with the
reported values the truncated subtraction agrees with the source). -/
def svdDefaultDirection (s : MPArray) : String :=
  if s.len - s.normalForm.2 > s.normalForm.1 then "left" else "right"

/-- Number of sites the `_lnormalize(toSite)` sweep QR-factors
(the length of `range(lnormal, to_site)`). -/
def lnormSweepCount (s : MPArray) (toSite : ℕ) : ℕ :=
  toSite - s.normalForm.1

/-- Number of sites the `_rnormalize(toSite)` sweep QR-factors
(the length of `range(rnormal - 1, to_site - 1, -1)`). -/
def rnormSweepCount (s : MPArray) (toSite : ℕ) : ℕ :=
  s.normalForm.2 - toSite

/-- `MPArray.compress(max_bdim, method, direction=...)`: only
`method='svd'` is supported; the direction defaults to
`svdDefaultDirection`; each recognized direction first normalizes and
then runs its sweep, returning the truncation error; an unrecognized
explicit direction falls through both branches and returns `None`
without touching the state. -/
def MPArray.compress {α : Type} [LinearOrderedField α] (qr : QRFun)
    (svd : SVDFun) (norm2 : Norm2Fun α) (maxBdim : ℕ) (method : String)
    (direction : Option String) (s : MPArray) :
    Except String (MPArray × Option (Option α)) :=
  if method = "svd" then
    let dir := direction.getD (svdDefaultDirection s)
    if dir = "right" then
      match s.normalizeKw qr (some 0) (some 1) with
      | .error e => .error e
      | .ok s1 => (s1.compressSvdR svd norm2 maxBdim).map
          (fun p => (p.1, some p.2))
    else if dir = "left" then
      match s.normalizeKw qr (some (s.len - 1)) (some s.len) with
      | .error e => .error e
      | .ok s1 => (s1.compressSvdL svd norm2 maxBdim).map
          (fun p => (p.1, some p.2))
    else .ok (s, none)
  else .error "ValueError: not a valid method"

/-- Axes argument of `_local_dot`: per side either a single axis or a
sequence of axes (`hasattr(-, '__len__')` distinguishes them). -/
inductive AxSpec where
  | scalar (i : Int)
  | tup (l : List Int)

/-- `clegs_l`: `len(axes[0]) if hasattr(axes[0], '__len__') else 1`. -/
def localDotClegsL (axes : AxSpec × AxSpec) : ℕ :=
  match axes.1 with
  | .tup l => l.length
  | .scalar _ => 1

/-- `clegs_r`: `len(axes[1]) if hasattr(axes[0], '__len__') else 1` —
note the source tests `axes[0]`, not `axes[1]`; `len` of a scalar
raises `TypeError` (modelled as `none`). -/
def localDotClegsR (axes : AxSpec × AxSpec) : Option ℕ :=
  match axes.1 with
  | .tup _ =>
    match axes.2 with
    | .tup l => some l.length
    | .scalar _ => none
  | .scalar _ => some 1

/-- The validation prologue of `_local_dot`: compute the two contracted
leg counts and assert they agree. -/
def localDotCheck (axes : AxSpec × AxSpec) : Except String Unit :=
  match localDotClegsR axes with
  | none => .error "TypeError"
  | some cr =>
    if localDotClegsL axes = cr then .ok ()
    else .error "AssertionError: contracted legs differ"

/-- The actual number of axes an `AxSpec` contracts. -/
def trueClegs : AxSpec → ℕ
  | .scalar _ => 1
  | .tup l => l.length

/-- `np.concatenate((a, b), axis=-1)` for arrays agreeing on all axes
but the last. -/
def hcat (a b : Tensor) : Tensor :=
  let e1 := a.shape.getLastD 0
  let e2 := b.shape.getLastD 0
  ⟨a.shape.dropLast ++ [e1 + e2],
   fun z =>
     if z % (e1 + e2) < e1 then a.data (z / (e1 + e2) * e1 + z % (e1 + e2))
     else b.data (z / (e1 + e2) * e2 + (z % (e1 + e2) - e1))⟩

/-- `np.concatenate((a, b), axis=0)` for arrays agreeing on all axes but
the first. -/
def vcat (a b : Tensor) : Tensor :=
  let h1 := a.shape.headD 0
  ⟨(h1 + b.shape.headD 0) :: a.shape.tail,
   fun z =>
     if z < h1 * a.shape.tail.prod then a.data z
     else b.data (z - h1 * a.shape.tail.prod)⟩

/-- `_local_add`: block-diagonal embedding of two interior local tensors
along the two bond axes (`res[:h1, ..., :e1] = a`,
`res[h1:, ..., e1:] = b`, zero elsewhere). -/
def localAdd (a b : Tensor) : Tensor :=
  let h1 := a.shape.headD 0
  let h2 := b.shape.headD 0
  let e1 := a.shape.getLastD 0
  let e2 := b.shape.getLastD 0
  let mid := a.shape.tail.dropLast
  let P := mid.prod
  ⟨(h1 + h2) :: (mid ++ [e1 + e2]),
   fun z =>
     let E := e1 + e2
     let u := z / (P * E)
     let c := z % (P * E) / E
     let e := z % (P * E) % E
     if u < h1 then
       (if e < e1 then a.data (u * (P * e1) + c * e1 + e) else 0)
     else
       (if e1 ≤ e then b.data ((u - h1) * (P * e2) + c * e2 + (e - e1))
        else 0)⟩

/-- `MPArray.__add__`: assert equal lengths, concatenate the two first
tensors along the last axis, block-embed `zip(self[1:-1], summand[1:-1])`
with `_local_add`, concatenate the two last tensors along axis 0, and
construct the result through the validating constructor. -/
def MPArray.add (a b : MPArray) : Except String MPArray :=
  if a.len = b.len then
    match a.ltens, b.ltens with
    | x :: _, y :: _ =>
      let mids := List.zipWith localAdd (a.ltens.drop 1).dropLast
                                        (b.ltens.drop 1).dropLast
      let lastT := vcat (a.ltens.getLastD junkT) (b.ltens.getLastD junkT)
      match initMPA (hcat x y :: (mids ++ [lastT])) none none with
      | .error _ => .error "ValueError: concatenate"
      | .ok m => .ok m
    | _, _ => .error "IndexError"
  else .error "AssertionError: length"

/-- The recursion of `_extract_factors`, with explicit fuel (the source
recursion removes `plegs` axes per step, so any fuel of at least the
number of axes suffices when `plegs ≥ 1`; `plegs = 0` never reaches the
recursive case through `from_array`). -/
def efGo (qr : QRFun) (p : ℕ) : ℕ → List ℕ → Vec → Except String (List Tensor)
  | fuel, s, d =>
    if s.length = p + 1 then .ok [⟨s ++ [1], d⟩]
    else if s.length < p + 1 then .error "AssertionError: legs insufficient"
    else
      match fuel with
      | 0 => .error "fuel"
      | fuel' + 1 =>
        let s1 := s.take (p + 1)
        let s2 := s.drop (p + 1)
        let m := s1.prod
        let n := s2.prod
        (efGo qr p fuel' (min m n :: s2) (qr m n d).2).map
          (fun rest => ⟨s1 ++ [min m n], (qr m n d).1⟩ :: rest)

/-- `_extract_factors(tens, plegs)`. -/
def extractFactors (qr : QRFun) (p : ℕ) (sh : List ℕ) (d : Vec) :
    Except String (List Tensor) :=
  efGo qr p sh.length sh d

/-- `MPArray.from_array(array, plegs)`: assert `array.ndim % plegs == 0`
(`% 0` raises `ZeroDivisionError`), factor `array[None]`, and build the
MPA with `_lnormalized = len(ltens) - 1`. -/
def fromArray (qr : QRFun) (p : ℕ) (sh : List ℕ) (d : Vec) :
    Except String MPArray :=
  if p = 0 then .error "ZeroDivisionError"
  else if sh.length % p ≠ 0 then .error "AssertionError: plegs invalid"
  else
    match extractFactors qr p (1 :: sh) d with
    | .error e => .error e
    | .ok lt =>
      match initMPA lt (some (lt.length - 1)) none with
      | .error _ => .error "ValueError"
      | .ok m => .ok m

/-- `MPArray.to_array()`. -/
def MPArray.toArray (s : MPArray) : Option Tensor := ltensToArray s.ltens

/-!  Concrete fixtures used by witnesses and counterexamples. -/

/-- A trivial QR routine used to instantiate witnesses. -/
def qrJunk : QRFun := fun _ _ _ => (fun _ => 0, fun _ => 0)

/-- A trivial SVD routine used to instantiate witnesses. -/
def svdJunk : SVDFun := fun _ _ _ => (fun _ => 0, fun _ => 0, fun _ => 0)

/-- A trivial norm routine satisfying `Norm2Spec`. -/
def norm2Junk : Norm2Fun ℚ := fun _ _ => 0

/-- A bond-dimension-1 local tensor of physical dimension 2. -/
def tensW : Tensor := ⟨[1, 2, 1], fun _ => 1⟩

/-- The empty MPA (accepted by the constructor). -/
def mpaEmpty : MPArray := ⟨[], none, none⟩

/-- A 2-site product-state MPA with default (unknown) normalization. -/
def mpaW2 : MPArray := ⟨[tensW, tensW], none, none⟩

/-- A 3-site MPA with `normal_form == (0, 1)` (fully right-normalized
but for site 0), as produced by `normalize(left=0, right=1)`. -/
def mpaC4 : MPArray := ⟨[tensW, tensW, tensW], none, some 1⟩

/-- A single-site MPA holding the 1-vector `[2]`. -/
def mpaS1A : MPArray := ⟨[⟨[1, 1, 1], fun _ => 2⟩], none, none⟩

/-- A single-site MPA holding the 1-vector `[3]`. -/
def mpaS1B : MPArray := ⟨[⟨[1, 1, 1], fun _ => 3⟩], none, none⟩

/-- First site of a bond-consistent chain with an over-provisioned
middle bond of 3 (`1 x 2` of data feeding a bond of 3). -/
def tensT123 : Tensor := ⟨[1, 2, 3], fun _ => 1⟩

/-- Second site of that chain. -/
def tensT321 : Tensor := ⟨[3, 2, 1], fun _ => 1⟩

/-- A 2-site MPA the constructor accepts (bonds 1,3,1 all match) whose
middle bond 3 exceeds the `1*2` remaining size of site 0, so both
normalization sweeps raise `ValueError` in the QR write-back. -/
def mpaOver : MPArray := ⟨[tensT123, tensT321], none, none⟩

/-!  Helper lemmas. -/

theorem pyOr_some (v d : ℕ) : pyOr (some v) d = if v = 0 then d else v := rfl

theorem firstMismatch_none_iff (lt : List Tensor) :
    firstMismatch lt = none ↔
      ∀ i, i + 1 < lt.length →
        (lt.getD i junkT).shape.getLastD 0 =
          (lt.getD (i + 1) junkT).shape.headD 0 := by
  induction lt with
  | nil => simp [firstMismatch]
  | cons a tl ih =>
    cases tl with
    | nil => simp [firstMismatch]
    | cons b rest =>
      by_cases h : a.shape.getLastD 0 = b.shape.headD 0
      · simp only [firstMismatch, h, ne_eq, not_true_eq_false, if_neg,
          not_false_eq_true, if_pos, Option.map_eq_none', ih]
        constructor
        · intro hall i hi
          match i with
          | 0 => simpa using h
          | j + 1 =>
            have := hall j (by simpa using hi)
            simpa using this
        · intro hall j hj
          have := hall (j + 1) (by simpa using hj)
          simpa using this
      · simp only [firstMismatch, ne_eq, h, not_false_eq_true, if_pos]
        constructor
        · intro habs; cases habs
        · intro hall
          exact absurd (by simpa using hall 0 (by simp)) h

theorem firstMismatch_some_spec (lt : List Tensor) (i a b : ℕ) :
    firstMismatch lt = some (i, a, b) →
      i + 1 < lt.length ∧
      a = (lt.getD i junkT).shape.getLastD 0 ∧
      b = (lt.getD (i + 1) junkT).shape.headD 0 ∧ a ≠ b ∧
      ∀ j < i, (lt.getD j junkT).shape.getLastD 0 =
        (lt.getD (j + 1) junkT).shape.headD 0 := by
  induction lt generalizing i with
  | nil => intro habs; simp [firstMismatch] at habs
  | cons x tl ih =>
    cases tl with
    | nil => intro habs; simp [firstMismatch] at habs
    | cons y rest =>
      by_cases h : x.shape.getLastD 0 = y.shape.headD 0
      · rw [firstMismatch, if_neg (by simpa using h)]
        cases hrec : firstMismatch (y :: rest) with
        | none => intro habs; simp at habs
        | some e =>
          obtain ⟨i', a', b'⟩ := e
          intro hm
          obtain ⟨hi, ha, hb⟩ : i = i' + 1 ∧ a = a' ∧ b = b' := by
            simp [Option.map] at hm
            exact ⟨hm.1.symm, hm.2.1.symm, hm.2.2.symm⟩
          subst hi; subst ha; subst hb
          obtain ⟨h1, h2, h3, h4, h5⟩ := ih i' hrec
          refine ⟨by simpa using h1, by simpa using h2, by simpa using h3,
            h4, ?_⟩
          intro j hj
          match j with
          | 0 => simpa using h
          | j' + 1 =>
            have := h5 j' (by omega)
            simpa using this
      · rw [firstMismatch, if_pos (by simpa using h)]
        intro hm
        obtain ⟨hi, ha, hb⟩ : i = 0 ∧ a = x.shape.getLastD 0 ∧
            b = y.shape.headD 0 := by
          simp only [Option.some.injEq, Prod.mk.injEq] at hm
          exact ⟨hm.1.symm, hm.2.1.symm, hm.2.2.symm⟩
        subst hi; subst ha; subst hb
        exact ⟨by simp, by simp, by simp, h, by omega⟩

theorem sumf_congr {n : ℕ} {f g : ℕ → ℚ} (h : ∀ i < n, f i = g i) :
    sumf n f = sumf n g := by
  induction n with
  | zero => rfl
  | succ n ih =>
    rw [sumf, sumf, ih (fun i hi => h i (by omega)), h n (by omega)]

theorem sumf_zero (n : ℕ) : sumf n (fun _ => (0 : ℚ)) = 0 := by
  induction n with
  | zero => rfl
  | succ n ih => rw [sumf, ih, add_zero]

theorem sumf_add (n : ℕ) (f g : ℕ → ℚ) :
    sumf n (fun i => f i + g i) = sumf n f + sumf n g := by
  induction n with
  | zero => simp [sumf]
  | succ n ih => simp only [sumf, ih]; ring

theorem sumf_mul_left (n : ℕ) (c : ℚ) (f : ℕ → ℚ) :
    sumf n (fun i => c * f i) = c * sumf n f := by
  induction n with
  | zero => simp [sumf]
  | succ n ih => simp only [sumf, ih]; ring

theorem sumf_mul_right (n : ℕ) (c : ℚ) (f : ℕ → ℚ) :
    sumf n (fun i => f i * c) = sumf n f * c := by
  induction n with
  | zero => simp [sumf]
  | succ n ih => simp only [sumf, ih]; ring

theorem sumf_swap (m n : ℕ) (f : ℕ → ℕ → ℚ) :
    sumf m (fun i => sumf n (fun j => f i j)) =
      sumf n (fun j => sumf m (fun i => f i j)) := by
  induction m with
  | zero => simp [sumf, sumf_zero]
  | succ m ih =>
    simp only [sumf, ih, sumf_add]

theorem idx_div {b B : ℕ} (a : ℕ) (hb : b < B) : (a * B + b) / B = a := by
  rw [Nat.mul_comm a B, Nat.mul_add_div (by omega) a b,
    Nat.div_eq_of_lt hb, add_zero]

theorem idx_mod {b B : ℕ} (a : ℕ) (hb : b < B) : (a * B + b) % B = b := by
  rw [Nat.mul_comm a B, Nat.mul_add_mod, Nat.mod_eq_of_lt hb]

/-- The defining entry formula of `mmul` at a decomposed index. -/
theorem mmul_entry (K N : ℕ) (A B : Vec) (i j : ℕ) (hj : j < N) :
    mmul K N A B (i * N + j) =
      sumf K (fun t => A (i * K + t) * B (t * N + j)) := by
  rw [mmul, idx_div i hj, idx_mod i hj]

/-- Key absorption identity: multiplying an accumulator `A` first by a
factor `q` (reshaped to have `P` physical entries and `k` columns) and
then by `r` agrees with multiplying `A` directly by the original matrix
`d = q * r` — the inductive step of the `_extract_factors` round trip. -/
theorem mmul_absorb (b P k n : ℕ) (A q r d : Vec)
    (hq : ∀ i < b * P, ∀ j < n,
      d (i * n + j) = sumf k (fun t => q (i * k + t) * r (t * n + j)))
    (a c j : ℕ) (hc : c < P) (hj : j < n) :
    mmul k n (mmul b (P * k) A q) r ((a * P + c) * n + j) =
      mmul b (P * n) A d ((a * P + c) * n + j) := by
  rw [mmul_entry k n _ r (a * P + c) j hj]
  have hstep : ∀ t < k,
      mmul b (P * k) A q ((a * P + c) * k + t) * r (t * n + j) =
        sumf b (fun u => A (a * b + u) * q ((u * P + c) * k + t) *
          r (t * n + j)) := by
    intro t ht
    have hck : c * k + t < P * k := by
      calc c * k + t < c * k + k := by omega
      _ = (c + 1) * k := by ring
      _ ≤ P * k := Nat.mul_le_mul_right k (by omega)
    have hidx : (a * P + c) * k + t = a * (P * k) + (c * k + t) := by ring
    rw [hidx, mmul_entry b (P * k) A q a (c * k + t) hck, ← sumf_mul_right]
    refine sumf_congr (fun u _ => ?_)
    have h2 : u * (P * k) + (c * k + t) = (u * P + c) * k + t := by ring
    rw [h2]
  rw [sumf_congr hstep, sumf_swap]
  have hcnj : c * n + j < P * n := by
    calc c * n + j < c * n + n := by omega
    _ = (c + 1) * n := by ring
    _ ≤ P * n := Nat.mul_le_mul_right n (by omega)
  have hidx2 : (a * P + c) * n + j = a * (P * n) + (c * n + j) := by ring
  rw [hidx2, mmul_entry b (P * n) A d a (c * n + j) hcnj]
  refine sumf_congr (fun u hu => ?_)
  have h1 : u * (P * n) + (c * n + j) = (u * P + c) * n + j := by ring
  rw [h1, hq (u * P + c) (by calc u * P + c < u * P + P := by omega
        _ = (u + 1) * P := by ring
        _ ≤ b * P := Nat.mul_le_mul_right P (by omega)) j hj,
    ← sumf_mul_left]
  refine sumf_congr (fun t _ => ?_)
  ring

/-- Contracting the first extracted factor against the (already
contracted) remainder recovers the original tensor: the base step of the
round trip, directly from the QR factorization property. -/
theorem absorb_base (b : ℕ) (s1t s2 : List ℕ) (q r d : Vec) (k : ℕ)
    (hq : ∀ i < b * s1t.prod, ∀ j < s2.prod,
      d (i * s2.prod + j) =
        sumf k (fun t => q (i * k + t) * r (t * s2.prod + j))) :
    Tensor.Eqv (matdot ⟨(b :: s1t) ++ [k], q⟩ ⟨(k :: s2) ++ [1], r⟩)
               ⟨(b :: (s1t ++ s2)) ++ [1], d⟩ := by
  have hshape : (matdot ⟨(b :: s1t) ++ [k], q⟩
      ⟨(k :: s2) ++ [1], r⟩).shape = (b :: (s1t ++ s2)) ++ [1] := by
    simp only [matdot, List.dropLast_concat]
    simp
  refine ⟨hshape, ?_⟩
  intro x hx
  rw [hshape] at hx
  have hx' : x < b * s1t.prod * s2.prod := by
    have : ((b :: (s1t ++ s2)) ++ [1]).prod =
        b * s1t.prod * s2.prod := by
      simp
      ring
    omega
  have hn : 0 < s2.prod := by
    rcases Nat.eq_zero_or_pos s2.prod with h0 | h1
    · rw [h0, Nat.mul_zero] at hx'; omega
    · exact h1
  have hi : x / s2.prod < b * s1t.prod := by
    apply Nat.div_lt_of_lt_mul
    calc x < b * s1t.prod * s2.prod := hx'
    _ = s2.prod * (b * s1t.prod) := by ring
  have hj : x % s2.prod < s2.prod := Nat.mod_lt _ hn
  have hdec : x / s2.prod * s2.prod + x % s2.prod = x := by
    rw [Nat.mul_comm]; exact Nat.div_add_mod x s2.prod
  have hdata : (matdot ⟨(b :: s1t) ++ [k], q⟩
      ⟨(k :: s2) ++ [1], r⟩).data x = mmul k s2.prod q r x := by
    simp only [matdot]
    have hN : ((k :: s2) ++ [1]).tail.prod = s2.prod := by simp
    rw [hN]
    rfl
  rw [hdata, ← hdec,
    mmul_entry k s2.prod q r (x / s2.prod) (x % s2.prod) hj]
  exact (hq (x / s2.prod) hi (x % s2.prod) hj).symm

/-- Absorbing one extracted factor into an arbitrary accumulator and
then the remainder agrees with absorbing the unfactored tensor: the
inductive step of the round trip. -/
theorem absorb_step (A : Tensor) (b : ℕ) (s1t s2 : List ℕ)
    (q r d : Vec) (k : ℕ)
    (hq : ∀ i < b * s1t.prod, ∀ j < s2.prod,
      d (i * s2.prod + j) =
        sumf k (fun t => q (i * k + t) * r (t * s2.prod + j))) :
    Tensor.Eqv (matdot (matdot A ⟨(b :: s1t) ++ [k], q⟩)
                  ⟨(k :: s2) ++ [1], r⟩)
               (matdot A ⟨(b :: (s1t ++ s2)) ++ [1], d⟩) := by
  have htail1 : ((b :: s1t) ++ [k]).tail = s1t ++ [k] := by simp
  have htail2 : ((k :: s2) ++ [1]).tail = s2 ++ [1] := by simp
  have htail3 : ((b :: (s1t ++ s2)) ++ [1]).tail = (s1t ++ s2) ++ [1] := by
    simp
  have hdl : (A.shape.dropLast ++ (s1t ++ [k])).dropLast =
      A.shape.dropLast ++ s1t := by
    rw [← List.append_assoc, List.dropLast_concat]
  have hshape : (matdot (matdot A ⟨(b :: s1t) ++ [k], q⟩)
      ⟨(k :: s2) ++ [1], r⟩).shape =
      (matdot A ⟨(b :: (s1t ++ s2)) ++ [1], d⟩).shape := by
    simp only [matdot, htail1, htail2, htail3, hdl]
    try simp
  refine ⟨hshape, ?_⟩
  intro x hx
  set P := s1t.prod with hP
  set n := s2.prod with hn
  set M := A.shape.dropLast.prod with hM
  have hx' : x < M * (P * n) := by
    have h1 : (matdot (matdot A ⟨(b :: s1t) ++ [k], q⟩)
        ⟨(k :: s2) ++ [1], r⟩).shape.prod = M * (P * n) := by
      simp only [matdot, htail1, htail2, hdl]
      simp [hM, hP, hn]
      try ring
    omega
  have hPn : 0 < P * n := by
    rcases Nat.eq_zero_or_pos (P * n) with h0 | h1
    · rw [h0, Nat.mul_zero] at hx'; omega
    · exact h1
  have hnpos : 0 < n := by
    rcases Nat.eq_zero_or_pos n with h0 | h1
    · rw [h0, Nat.mul_zero] at hPn; omega
    · exact h1
  have hPpos : 0 < P := by
    rcases Nat.eq_zero_or_pos P with h0 | h1
    · rw [h0, Nat.zero_mul] at hPn; omega
    · exact h1
  have hj : x % n < n := Nat.mod_lt _ hnpos
  have hc : x / n % P < P := Nat.mod_lt _ hPpos
  have hxeq : (x / n / P * P + x / n % P) * n + x % n = x := by
    have h1 : x / n / P * P + x / n % P = x / n := by
      rw [Nat.mul_comm]; exact Nat.div_add_mod _ P
    rw [h1, Nat.mul_comm]; exact Nat.div_add_mod x n
  have hlhs : (matdot (matdot A ⟨(b :: s1t) ++ [k], q⟩)
      ⟨(k :: s2) ++ [1], r⟩).data x =
      mmul k n (mmul b (P * k) A.data q) r x := by
    simp only [matdot, htail1, htail2]
    have e2 : (s2 ++ [1]).prod = n := by simp [hn]
    have e4 : (s1t ++ [k]).prod = P * k := by simp [hP]
    rw [e2, e4]
    rfl
  have hrhs : (matdot A ⟨(b :: (s1t ++ s2)) ++ [1], d⟩).data x =
      mmul b (P * n) A.data d x := by
    simp only [matdot, htail3]
    have e5 : ((s1t ++ s2) ++ [1]).prod = P * n := by simp [hP, hn]
    rw [e5]
    rfl
  rw [hlhs, hrhs, ← hxeq]
  exact mmul_absorb b P k n A.data q r d hq _ _ _ hc hj

theorem teqv_refl (a : Tensor) : a.Eqv a := ⟨rfl, fun _ _ => rfl⟩

theorem teqv_trans {a b c : Tensor} (h1 : a.Eqv b) (h2 : b.Eqv c) :
    a.Eqv c := by
  obtain ⟨hs1, hd1⟩ := h1
  obtain ⟨hs2, hd2⟩ := h2
  exact ⟨hs1.trans hs2, fun x hx => (hd1 x hx).trans (hd2 x (hs1 ▸ hx))⟩

/-- Full specification of the `_extract_factors` recursion: on a tensor
whose axis count is `1` more than a positive multiple of `plegs` it
succeeds, produces `(ndim - 1) / plegs` local tensors forming a valid
chain whose leading bond equals the input's leading axis, and folding
`matdot` over the chain (with or without a leading accumulator)
reproduces the input tensor extended by a trailing dummy axis. -/
theorem efGo_spec (qr : QRFun) (hqr : QRSpec qr) (p : ℕ) (hp : 0 < p) :
    ∀ (fuel : ℕ) (s : List ℕ) (d : Vec),
      p + 1 ≤ s.length → p ∣ (s.length - (p + 1)) →
      s.length ≤ fuel + 1 →
      ∃ fs, efGo qr p fuel s d = .ok fs ∧
        fs ≠ [] ∧
        fs.length = (s.length - 1) / p ∧
        firstMismatch fs = none ∧
        (fs.headD junkT).shape.headD 0 = s.headD 0 ∧
        (∀ A : Tensor,
          Tensor.Eqv (fs.foldl matdot A) (matdot A ⟨s ++ [1], d⟩)) ∧
        Tensor.Eqv (fs.tail.foldl matdot (fs.headD junkT))
          ⟨s ++ [1], d⟩ := by
  intro fuel
  induction fuel with
  | zero =>
    intro s d h1 _ h3
    omega
  | succ fuel' ih =>
    intro s d h1 hdvd h3
    by_cases hbase : s.length = p + 1
    · refine ⟨[⟨s ++ [1], d⟩], ?_, by simp, ?_, rfl, ?_, ?_, ?_⟩
      · rw [efGo, if_pos hbase]
      · rw [List.length_singleton, hbase]
        rw [Nat.add_sub_cancel, Nat.div_self hp]
      · cases s with
        | nil => simp at hbase
        | cons a t => rfl
      · intro A
        exact teqv_refl _
      · exact teqv_refl _
    · have hgt : p + 1 < s.length := by omega
      have hge : p ≤ s.length - (p + 1) := by
        obtain ⟨c, hc⟩ := hdvd
        have hc0 : 0 < c := by
          rcases Nat.eq_zero_or_pos c with h0 | hcp
          · rw [h0, Nat.mul_zero] at hc; omega
          · exact hcp
        calc p = p * 1 := (Nat.mul_one p).symm
        _ ≤ p * c := Nat.mul_le_mul_left p hc0
        _ = s.length - (p + 1) := hc.symm
      have hs1len : (s.take (p + 1)).length = p + 1 := by
        rw [List.length_take]; omega
      obtain ⟨b, s1t, hbs⟩ : ∃ b s1t, s.take (p + 1) = b :: s1t := by
        cases hc : s.take (p + 1) with
        | nil => rw [hc] at hs1len; simp at hs1len
        | cons b s1t => exact ⟨b, s1t, rfl⟩
      have hsdec : s = (b :: s1t) ++ s.drop (p + 1) := by
        rw [← hbs, List.take_append_drop]
      set s2 := s.drop (p + 1) with hs2
      set m := (s.take (p + 1)).prod with hm
      set n := s2.prod with hn
      set k := min m n with hk
      have hlen2 : (k :: s2).length = s.length - p := by
        simp only [List.length_cons, hs2, List.length_drop]; omega
      have hIH := ih (k :: s2) (qr m n d).2
        (by rw [hlen2]; omega)
        (by
          have hd2 : p ∣ (s.length - (p + 1) - p) :=
            Nat.dvd_sub' hdvd (dvd_refl p)
          have heq : (k :: s2).length - (p + 1) =
              s.length - (p + 1) - p := by rw [hlen2]; omega
          rw [heq]; exact hd2)
        (by rw [hlen2]; omega)
      obtain ⟨fs', hok', hne', hlenf', hfm', hhead', hfoldA', _⟩ := hIH
      have hstep : efGo qr p (fuel' + 1) s d =
          (efGo qr p fuel' (k :: s2) (qr m n d).2).map
            (fun rest => ⟨s.take (p + 1) ++ [k], (qr m n d).1⟩ :: rest) := by
        rw [efGo, if_neg hbase, if_neg (by omega)]
      have hq : ∀ i < b * s1t.prod, ∀ j < s2.prod,
          d (i * s2.prod + j) = sumf k (fun t =>
            (qr m n d).1 (i * k + t) * (qr m n d).2 (t * s2.prod + j)) := by
        intro i hi j hj
        have hmprod : m = b * s1t.prod := by
          rw [hm, hbs, List.prod_cons]
        exact hqr m n d i (by omega) j hj
      refine ⟨⟨(b :: s1t) ++ [k], (qr m n d).1⟩ :: fs', ?_, by simp,
        ?_, ?_, ?_, ?_, ?_⟩
      · rw [hstep, hok', hbs]
        rfl
      · rw [List.length_cons, hlenf', hlen2]
        have hp1 : p ≤ s.length - 1 := by omega
        rw [Nat.div_eq_sub_div hp hp1]
        have : s.length - p - 1 = s.length - 1 - p := by omega
        rw [this]
      · rw [firstMismatch_none_iff]
        intro i hi
        match i with
        | 0 =>
          simp only [List.getD_cons_zero, List.getD_cons_succ]
          have h1' : (Tensor.mk ((b :: s1t) ++ [k])
              (qr m n d).1).shape.getLastD 0 = k := by
            show ((b :: s1t) ++ [k]).getLastD 0 = k
            rw [List.getLastD_concat]
          have h2' : fs'.getD 0 junkT = fs'.headD junkT := by
            cases fs' with
            | nil => exact absurd rfl hne'
            | cons f t => rfl
          rw [h1', h2', hhead']
          rfl
        | j + 1 =>
          simp only [List.getD_cons_succ]
          exact (firstMismatch_none_iff fs').1 hfm' j (by simpa using hi)
      · show ((b :: s1t) ++ [k]).headD 0 = s.headD 0
        rw [hsdec]
        rfl
      · intro A
        refine teqv_trans (hfoldA' (matdot A ⟨(b :: s1t) ++ [k],
          (qr m n d).1⟩)) ?_
        have habs := absorb_step A b s1t s2 (qr m n d).1 (qr m n d).2 d
          k hq
        rw [hsdec]
        exact habs
      · show Tensor.Eqv (fs'.foldl matdot ⟨(b :: s1t) ++ [k],
          (qr m n d).1⟩) ⟨s ++ [1], d⟩
        refine teqv_trans (hfoldA' ⟨(b :: s1t) ++ [k], (qr m n d).1⟩) ?_
        have habs := absorb_base b s1t s2 (qr m n d).1 (qr m n d).2 d
          k hq
        rw [hsdec]
        exact habs

theorem sumf_delta (mm : ℕ) :
    ∀ i < mm, ∀ f : ℕ → ℚ,
      sumf mm (fun t => (if i = t then 1 else 0) * f t) = f i := by
  induction mm with
  | zero => intro i hi; omega
  | succ m' ih =>
    intro i hi f
    rw [sumf]
    by_cases hcase : i = m'
    · subst hcase
      have hz : sumf i (fun t => (if i = t then (1 : ℚ) else 0) * f t) =
          sumf i (fun _ => (0 : ℚ)) :=
        sumf_congr (fun t ht => by rw [if_neg (by omega), zero_mul])
      rw [hz, sumf_zero, if_pos rfl, one_mul, zero_add]
    · have hi' : i < m' := by omega
      rw [ih i hi' f, if_neg hcase, zero_mul, add_zero]

theorem sumf_delta_right (mm : ℕ) :
    ∀ j < mm, ∀ f : ℕ → ℚ,
      sumf mm (fun t => f t * (if t = j then 1 else 0)) = f j := by
  induction mm with
  | zero => intro j hj; omega
  | succ m' ih =>
    intro j hj f
    rw [sumf]
    by_cases hcase : m' = j
    · subst hcase
      have hz : sumf m' (fun t => f t * (if t = m' then (1 : ℚ) else 0)) =
          sumf m' (fun _ => (0 : ℚ)) :=
        sumf_congr (fun t ht => by rw [if_neg (by omega), mul_zero])
      rw [hz, sumf_zero, if_pos rfl, mul_one, zero_add]
    · have hj' : j < m' := by omega
      rw [ih j hj' f, if_neg hcase, mul_zero, add_zero]

theorem sumf_split (a b : ℕ) (f : ℕ → ℚ) :
    sumf (a + b) f = sumf a f + sumf b (fun i => f (a + i)) := by
  induction b with
  | zero => simp [sumf]
  | succ b ih =>
    have h1 : a + (b + 1) = (a + b) + 1 := by omega
    rw [h1, sumf, ih, sumf, add_assoc]

theorem prod_dropLast_getLastD (l : List ℕ) (hne : l ≠ []) :
    l.dropLast.prod * l.getLastD 0 = l.prod := by
  conv_rhs => rw [← List.dropLast_append_getLast hne]
  rw [List.prod_append, List.prod_singleton]
  congr 1
  rw [List.getLastD_eq_getLast?, List.getLast?_eq_getLast _ hne]
  rfl

/-- `matdot` respects observational equality in its left argument when
the contracted dimensions agree (the indices it reads are then in
range). -/
theorem matdot_congr_left (X Y t : Tensor) (h : X.Eqv Y)
    (hlast : Y.shape.getLastD 0 = t.shape.headD 0)
    (hne : Y.shape ≠ []) :
    (matdot X t).Eqv (matdot Y t) := by
  obtain ⟨hsh, hd⟩ := h
  refine ⟨by rw [matdot, matdot, hsh], ?_⟩
  intro z hz
  show mmul (t.shape.headD 0) t.shape.tail.prod X.data t.data z =
    mmul (t.shape.headD 0) t.shape.tail.prod Y.data t.data z
  rw [mmul, mmul]
  have hzb : z < Y.shape.dropLast.prod * t.shape.tail.prod := by
    have hpe : (matdot X t).shape.prod =
        Y.shape.dropLast.prod * t.shape.tail.prod := by
      rw [matdot]
      show (X.shape.dropLast ++ t.shape.tail).prod = _
      rw [List.prod_append, hsh]
    omega
  have hNpos : 0 < t.shape.tail.prod := by
    rcases Nat.eq_zero_or_pos t.shape.tail.prod with h0 | h1
    · rw [h0, Nat.mul_zero] at hzb; omega
    · exact h1
  have hdiv : z / t.shape.tail.prod < Y.shape.dropLast.prod := by
    apply Nat.div_lt_of_lt_mul
    calc z < Y.shape.dropLast.prod * t.shape.tail.prod := hzb
    _ = t.shape.tail.prod * Y.shape.dropLast.prod := by ring
  refine sumf_congr (fun u hu => ?_)
  have hidx : z / t.shape.tail.prod * t.shape.headD 0 + u <
      X.shape.prod := by
    calc z / t.shape.tail.prod * t.shape.headD 0 + u
        < z / t.shape.tail.prod * t.shape.headD 0 + t.shape.headD 0 := by
          omega
      _ = (z / t.shape.tail.prod + 1) * t.shape.headD 0 := by ring
      _ ≤ Y.shape.dropLast.prod * t.shape.headD 0 :=
          Nat.mul_le_mul_right _ (by omega)
      _ = Y.shape.dropLast.prod * Y.shape.getLastD 0 := by rw [hlast]
      _ = Y.shape.prod := prod_dropLast_getLastD _ hne
      _ = X.shape.prod := by rw [hsh]
  rw [hd _ hidx]

theorem idx_bound_aux (gs : List ℕ) (hH : 1 ≤ gs.headD 0)
    (hL : gs.getLastD 1 = 1) (z : ℕ)
    (hz : z < gs.tail.dropLast.prod) : z < gs.prod := by
  cases gs with
  | nil => exact hz
  | cons H t =>
    simp only [List.headD_cons] at hH
    simp only [List.tail_cons] at hz
    cases t with
    | nil =>
      simp only [List.dropLast_nil, List.prod_nil] at hz
      simp only [List.prod_cons, List.prod_nil, Nat.mul_one]
      omega
    | cons t0 ts =>
      have htne : (t0 :: ts) ≠ [] := by simp
      have hLc : (t0 :: ts).getLastD H = 1 := by
        rw [List.getLastD_cons] at hL
        exact hL
      have hlast1 : (t0 :: ts).getLastD 0 = 1 := by
        rw [List.getLastD_eq_getLast?,
          List.getLast?_eq_getLast _ htne] at hLc ⊢
        exact hLc
      have hprod : (H :: t0 :: ts).prod = H * (t0 :: ts).dropLast.prod := by
        rw [List.prod_cons, ← prod_dropLast_getLastD _ htne, hlast1,
          Nat.mul_one]
      rw [hprod]
      calc z < (t0 :: ts).dropLast.prod := hz
      _ ≤ H * (t0 :: ts).dropLast.prod := Nat.le_mul_of_pos_left _ hH

/-- `index00` respects observational equality when the boundary legs are
nondegenerate (leading axis positive, trailing axis of size one). -/
theorem index00_congr (F G : Tensor) (h : F.Eqv G)
    (hH : 1 ≤ G.shape.headD 0) (hL : G.shape.getLastD 1 = 1) :
    (index00 F).Eqv (index00 G) := by
  obtain ⟨hsh, hd⟩ := h
  refine ⟨by rw [index00, index00, hsh], ?_⟩
  intro z hz
  show F.data (z * F.shape.getLastD 1) = G.data (z * G.shape.getLastD 1)
  rw [hsh, hL, Nat.mul_one]
  apply hd
  have hz2 : z < G.shape.tail.dropLast.prod := by
    have he : (index00 F).shape = G.shape.tail.dropLast := by
      rw [index00]
      show F.shape.tail.dropLast = G.shape.tail.dropLast
      rw [hsh]
    rw [he] at hz
    exact hz
  rw [hsh]
  exact idx_bound_aux G.shape hH hL z hz2

theorem matdot_eq (a b : Tensor) (ia tb : List ℕ) (ca cb : ℕ)
    (ha : a.shape = ia ++ [ca]) (hb : b.shape = cb :: tb) :
    matdot a b = ⟨ia ++ tb, mmul cb tb.prod a.data b.data⟩ := by
  rw [matdot, ha, hb]
  simp only [List.dropLast_concat, List.tail_cons, List.headD_cons]

theorem hcat_eq (a b : Tensor) (ia : List ℕ) (c1 c2 : ℕ) (dU dV : Vec)
    (ha : a = ⟨ia ++ [c1], dU⟩) (hb : b = ⟨ia ++ [c2], dV⟩) :
    hcat a b = ⟨ia ++ [c1 + c2], fun z =>
      if z % (c1 + c2) < c1 then dU (z / (c1 + c2) * c1 + z % (c1 + c2))
      else dV (z / (c1 + c2) * c2 + (z % (c1 + c2) - c1))⟩ := by
  subst ha; subst hb
  rw [hcat]
  simp only [List.getLastD_concat, List.dropLast_concat]

theorem vcat_eq (a b : Tensor) (tl : List ℕ) (c1 c2 : ℕ) (dA dB : Vec)
    (ha : a = ⟨c1 :: tl, dA⟩) (hb : b = ⟨c2 :: tl, dB⟩) :
    vcat a b = ⟨(c1 + c2) :: tl, fun z =>
      if z < c1 * tl.prod then dA z else dB (z - c1 * tl.prod)⟩ := by
  subst ha; subst hb
  rw [vcat]
  simp only [List.headD_cons, List.tail_cons]

theorem localAdd_eq (a b : Tensor) (mid : List ℕ) (c1 c2 e1 e2 : ℕ)
    (dl dr : Vec)
    (ha : a = ⟨c1 :: (mid ++ [e1]), dl⟩)
    (hb : b = ⟨c2 :: (mid ++ [e2]), dr⟩) :
    localAdd a b = ⟨(c1 + c2) :: (mid ++ [e1 + e2]), fun z =>
      if z / (mid.prod * (e1 + e2)) < c1 then
        (if z % (mid.prod * (e1 + e2)) % (e1 + e2) < e1 then
          dl (z / (mid.prod * (e1 + e2)) * (mid.prod * e1) +
            z % (mid.prod * (e1 + e2)) / (e1 + e2) * e1 +
            z % (mid.prod * (e1 + e2)) % (e1 + e2))
         else 0)
      else
        (if e1 ≤ z % (mid.prod * (e1 + e2)) % (e1 + e2) then
          dr ((z / (mid.prod * (e1 + e2)) - c1) * (mid.prod * e2) +
            z % (mid.prod * (e1 + e2)) / (e1 + e2) * e2 +
            (z % (mid.prod * (e1 + e2)) % (e1 + e2) - e1))
         else 0)⟩ := by
  subst ha; subst hb
  rw [localAdd]
  simp only [List.headD_cons, List.tail_cons, List.getLastD_cons,
    List.getLastD_concat, List.dropLast_concat]

/-- Contracting the horizontal concatenation of two accumulator rows
with a block-diagonally embedded interior tensor splits into the two
independent contractions, block by block. -/
theorem mmul_block_mid (P e1 e2 c1 c2 : ℕ) (dU dV dl dr : Vec)
    (i c e : ℕ) (hc : c < P) (he : e < e1 + e2) :
    mmul (c1 + c2) (P * (e1 + e2))
      (fun z => if z % (c1 + c2) < c1
        then dU (z / (c1 + c2) * c1 + z % (c1 + c2))
        else dV (z / (c1 + c2) * c2 + (z % (c1 + c2) - c1)))
      (fun z => if z / (P * (e1 + e2)) < c1 then
        (if z % (P * (e1 + e2)) % (e1 + e2) < e1 then
          dl (z / (P * (e1 + e2)) * (P * e1) +
            z % (P * (e1 + e2)) / (e1 + e2) * e1 +
            z % (P * (e1 + e2)) % (e1 + e2))
         else 0)
      else
        (if e1 ≤ z % (P * (e1 + e2)) % (e1 + e2) then
          dr ((z / (P * (e1 + e2)) - c1) * (P * e2) +
            z % (P * (e1 + e2)) / (e1 + e2) * e2 +
            (z % (P * (e1 + e2)) % (e1 + e2) - e1))
         else 0))
      (i * (P * (e1 + e2)) + (c * (e1 + e2) + e)) =
    (if e < e1 then
      mmul c1 (P * e1) dU dl (i * (P * e1) + (c * e1 + e))
     else
      mmul c2 (P * e2) dV dr (i * (P * e2) + (c * e2 + (e - e1)))) := by
  have hEpos : 0 < e1 + e2 := by omega
  have hw : c * (e1 + e2) + e < P * (e1 + e2) := by
    calc c * (e1 + e2) + e < c * (e1 + e2) + (e1 + e2) := by omega
    _ = (c + 1) * (e1 + e2) := by ring
    _ ≤ P * (e1 + e2) := Nat.mul_le_mul_right _ (by omega)
  rw [mmul_entry _ _ _ _ i _ hw]
  have hterm : ∀ t < c1 + c2,
      (if (i * (c1 + c2) + t) % (c1 + c2) < c1
        then dU ((i * (c1 + c2) + t) / (c1 + c2) * c1 +
          (i * (c1 + c2) + t) % (c1 + c2))
        else dV ((i * (c1 + c2) + t) / (c1 + c2) * c2 +
          ((i * (c1 + c2) + t) % (c1 + c2) - c1))) *
      (if (t * (P * (e1 + e2)) + (c * (e1 + e2) + e)) / (P * (e1 + e2))
          < c1 then
        (if (t * (P * (e1 + e2)) + (c * (e1 + e2) + e)) % (P * (e1 + e2))
            % (e1 + e2) < e1 then
          dl ((t * (P * (e1 + e2)) + (c * (e1 + e2) + e)) / (P * (e1 + e2))
              * (P * e1) +
            (t * (P * (e1 + e2)) + (c * (e1 + e2) + e)) % (P * (e1 + e2))
              / (e1 + e2) * e1 +
            (t * (P * (e1 + e2)) + (c * (e1 + e2) + e)) % (P * (e1 + e2))
              % (e1 + e2))
         else 0)
      else
        (if e1 ≤ (t * (P * (e1 + e2)) + (c * (e1 + e2) + e))
            % (P * (e1 + e2)) % (e1 + e2) then
          dr (((t * (P * (e1 + e2)) + (c * (e1 + e2) + e)) / (P * (e1 + e2))
              - c1) * (P * e2) +
            (t * (P * (e1 + e2)) + (c * (e1 + e2) + e)) % (P * (e1 + e2))
              / (e1 + e2) * e2 +
            ((t * (P * (e1 + e2)) + (c * (e1 + e2) + e)) % (P * (e1 + e2))
              % (e1 + e2) - e1))
         else 0)) =
      (if t < c1 then dU (i * c1 + t) else dV (i * c2 + (t - c1))) *
      (if t < c1 then
        (if e < e1 then dl (t * (P * e1) + (c * e1 + e)) else 0)
       else
        (if e1 ≤ e then dr ((t - c1) * (P * e2) + (c * e2 + (e - e1)))
         else 0)) := by
    intro t ht
    rw [idx_div i ht, idx_mod i ht, idx_div t hw, idx_mod t hw,
      idx_div c he, idx_mod c he]
    congr 1
    by_cases htc : t < c1
    · rw [if_pos htc, if_pos htc]
      by_cases hee : e < e1
      · rw [if_pos hee, if_pos hee]
        congr 1
        ring
      · rw [if_neg hee, if_neg hee]
    · rw [if_neg htc, if_neg htc]
      by_cases hee : e1 ≤ e
      · rw [if_pos hee, if_pos hee]
        congr 1
        ring
      · rw [if_neg hee, if_neg hee]
  rw [sumf_congr hterm, sumf_split c1 c2]
  by_cases hee : e < e1
  · rw [if_pos hee]
    have hje : c * e1 + e < P * e1 := by
      calc c * e1 + e < c * e1 + e1 := by omega
      _ = (c + 1) * e1 := by ring
      _ ≤ P * e1 := Nat.mul_le_mul_right _ (by omega)
    rw [mmul_entry _ _ _ _ i _ hje]
    have h1 : sumf c1 (fun t =>
        (if t < c1 then dU (i * c1 + t) else dV (i * c2 + (t - c1))) *
        (if t < c1 then (if e < e1 then dl (t * (P * e1) + (c * e1 + e))
          else 0)
         else (if e1 ≤ e then dr ((t - c1) * (P * e2) + (c * e2 + (e - e1)))
          else 0))) =
        sumf c1 (fun t => dU (i * c1 + t) * dl (t * (P * e1) +
          (c * e1 + e))) := by
      refine sumf_congr (fun t ht => ?_)
      rw [if_pos ht, if_pos ht, if_pos hee]
    have h2 : sumf c2 (fun u =>
        (if c1 + u < c1 then dU (i * c1 + (c1 + u))
          else dV (i * c2 + (c1 + u - c1))) *
        (if c1 + u < c1 then
          (if e < e1 then dl ((c1 + u) * (P * e1) + (c * e1 + e)) else 0)
         else (if e1 ≤ e then
          dr ((c1 + u - c1) * (P * e2) + (c * e2 + (e - e1))) else 0))) =
        sumf c2 (fun _ => (0 : ℚ)) := by
      refine sumf_congr (fun u hu => ?_)
      rw [if_neg (by omega), if_neg (by omega), if_neg (by omega),
        mul_zero]
    rw [h1, h2, sumf_zero, add_zero]
  · rw [if_neg hee]
    have hje : c * e2 + (e - e1) < P * e2 := by
      calc c * e2 + (e - e1) < c * e2 + e2 := by omega
      _ = (c + 1) * e2 := by ring
      _ ≤ P * e2 := Nat.mul_le_mul_right _ (by omega)
    rw [mmul_entry _ _ _ _ i _ hje]
    have h1 : sumf c1 (fun t =>
        (if t < c1 then dU (i * c1 + t) else dV (i * c2 + (t - c1))) *
        (if t < c1 then (if e < e1 then dl (t * (P * e1) + (c * e1 + e))
          else 0)
         else (if e1 ≤ e then dr ((t - c1) * (P * e2) + (c * e2 + (e - e1)))
          else 0))) =
        sumf c1 (fun _ => (0 : ℚ)) := by
      refine sumf_congr (fun t ht => ?_)
      rw [if_pos ht, if_pos ht, if_neg hee, mul_zero]
    have h2 : sumf c2 (fun u =>
        (if c1 + u < c1 then dU (i * c1 + (c1 + u))
          else dV (i * c2 + (c1 + u - c1))) *
        (if c1 + u < c1 then
          (if e < e1 then dl ((c1 + u) * (P * e1) + (c * e1 + e)) else 0)
         else (if e1 ≤ e then
          dr ((c1 + u - c1) * (P * e2) + (c * e2 + (e - e1))) else 0))) =
        sumf c2 (fun u => dV (i * c2 + u) *
          dr (u * (P * e2) + (c * e2 + (e - e1)))) := by
      refine sumf_congr (fun u hu => ?_)
      rw [if_neg (by omega), if_neg (by omega), if_pos (by omega)]
      have hu1 : c1 + u - c1 = u := by omega
      rw [hu1]
    rw [h1, h2, sumf_zero, zero_add]

/-- Contracting the horizontal concatenation of two accumulator rows
with the vertical concatenation of the two final tensors gives the sum
of the two independent contractions. -/
theorem mmul_block_last (N c1 c2 : ℕ) (dU dV dA dB : Vec) (i j : ℕ)
    (hj : j < N) :
    mmul (c1 + c2) N
      (fun z => if z % (c1 + c2) < c1
        then dU (z / (c1 + c2) * c1 + z % (c1 + c2))
        else dV (z / (c1 + c2) * c2 + (z % (c1 + c2) - c1)))
      (fun z => if z < c1 * N then dA z else dB (z - c1 * N))
      (i * N + j) =
    mmul c1 N dU dA (i * N + j) + mmul c2 N dV dB (i * N + j) := by
  rw [mmul_entry _ _ _ _ i _ hj, mmul_entry _ _ _ _ i _ hj,
    mmul_entry _ _ _ _ i _ hj]
  have hterm : ∀ t < c1 + c2,
      (if (i * (c1 + c2) + t) % (c1 + c2) < c1
        then dU ((i * (c1 + c2) + t) / (c1 + c2) * c1 +
          (i * (c1 + c2) + t) % (c1 + c2))
        else dV ((i * (c1 + c2) + t) / (c1 + c2) * c2 +
          ((i * (c1 + c2) + t) % (c1 + c2) - c1))) *
      (if t * N + j < c1 * N then dA (t * N + j)
        else dB (t * N + j - c1 * N)) =
      (if t < c1 then dU (i * c1 + t) else dV (i * c2 + (t - c1))) *
      (if t < c1 then dA (t * N + j) else dB ((t - c1) * N + j)) := by
    intro t ht
    rw [idx_div i ht, idx_mod i ht]
    congr 1
    by_cases htc : t < c1
    · rw [if_pos htc, if_pos (by
        calc t * N + j < t * N + N := by omega
        _ = (t + 1) * N := by ring
        _ ≤ c1 * N := Nat.mul_le_mul_right _ (by omega))]
    · rw [if_neg htc, if_neg (by
        have : c1 * N ≤ t * N := Nat.mul_le_mul_right _ (by omega)
        omega)]
      congr 1
      have : (t - c1) * N = t * N - c1 * N := by
        rw [Nat.sub_mul]
      have hcn : c1 * N ≤ t * N := Nat.mul_le_mul_right _ (by omega)
      omega
  rw [sumf_congr hterm, sumf_split c1 c2]
  congr 1
  · refine sumf_congr (fun t ht => ?_)
    rw [if_pos ht, if_pos ht]
  · refine sumf_congr (fun u hu => ?_)
    rw [if_neg (by omega), if_neg (by omega)]
    have h1 : c1 + u - c1 = u := by omega
    rw [h1]

/-- One interior step of the addition invariant: pushing the
concatenated accumulator through a block-embedded `_local_add` tensor
equals concatenating the two separately pushed accumulators. -/
theorem hcat_localAdd_step (I mid : List ℕ) (c1 c2 e1 e2 : ℕ)
    (dU dV dl dr : Vec) :
    Tensor.Eqv
      (matdot (hcat ⟨I ++ [c1], dU⟩ ⟨I ++ [c2], dV⟩)
              (localAdd ⟨c1 :: (mid ++ [e1]), dl⟩
                        ⟨c2 :: (mid ++ [e2]), dr⟩))
      (hcat (matdot ⟨I ++ [c1], dU⟩ ⟨c1 :: (mid ++ [e1]), dl⟩)
            (matdot ⟨I ++ [c2], dV⟩ ⟨c2 :: (mid ++ [e2]), dr⟩)) := by
  have ea : (⟨I ++ (mid ++ [e1]),
      mmul c1 (mid ++ [e1]).prod dU dl⟩ : Tensor) =
      ⟨(I ++ mid) ++ [e1], mmul c1 (mid ++ [e1]).prod dU dl⟩ := by
    rw [List.append_assoc]
  have eb : (⟨I ++ (mid ++ [e2]),
      mmul c2 (mid ++ [e2]).prod dV dr⟩ : Tensor) =
      ⟨(I ++ mid) ++ [e2], mmul c2 (mid ++ [e2]).prod dV dr⟩ := by
    rw [List.append_assoc]
  rw [hcat_eq ⟨I ++ [c1], dU⟩ ⟨I ++ [c2], dV⟩ I c1 c2 dU dV rfl rfl,
    localAdd_eq ⟨c1 :: (mid ++ [e1]), dl⟩ ⟨c2 :: (mid ++ [e2]), dr⟩
      mid c1 c2 e1 e2 dl dr rfl rfl,
    matdot_eq _ _ I (mid ++ [e1 + e2]) (c1 + c2) (c1 + c2) rfl rfl,
    matdot_eq _ _ I (mid ++ [e1]) c1 c1 rfl rfl,
    matdot_eq _ _ I (mid ++ [e2]) c2 c2 rfl rfl,
    hcat_eq _ _ (I ++ mid) e1 e2 _ _ ea eb]
  constructor
  · show I ++ (mid ++ [e1 + e2]) = (I ++ mid) ++ [e1 + e2]
    rw [List.append_assoc]
  · intro z hz
    simp only [List.prod_append, List.prod_singleton] at hz ⊢
    have hPE : 0 < mid.prod * (e1 + e2) := by
      rcases Nat.eq_zero_or_pos (mid.prod * (e1 + e2)) with h0 | h1
      · rw [h0, Nat.mul_zero] at hz; omega
      · exact h1
    have hEpos : 0 < e1 + e2 := by
      rcases Nat.eq_zero_or_pos (e1 + e2) with h0 | h1
      · rw [h0, Nat.mul_zero] at hPE; omega
      · exact h1
    have hPpos : 0 < mid.prod := by
      rcases Nat.eq_zero_or_pos mid.prod with h0 | h1
      · rw [h0, Nat.zero_mul] at hPE; omega
      · exact h1
    have hc : z % (mid.prod * (e1 + e2)) / (e1 + e2) < mid.prod := by
      apply Nat.div_lt_of_lt_mul
      calc z % (mid.prod * (e1 + e2)) < mid.prod * (e1 + e2) :=
        Nat.mod_lt _ hPE
      _ = (e1 + e2) * mid.prod := by ring
    have he : z % (mid.prod * (e1 + e2)) % (e1 + e2) < e1 + e2 :=
      Nat.mod_lt _ hEpos
    have hzeq : z / (mid.prod * (e1 + e2)) * (mid.prod * (e1 + e2)) +
        (z % (mid.prod * (e1 + e2)) / (e1 + e2) * (e1 + e2) +
          z % (mid.prod * (e1 + e2)) % (e1 + e2)) = z := by
      have ha : z % (mid.prod * (e1 + e2)) / (e1 + e2) * (e1 + e2) +
          z % (mid.prod * (e1 + e2)) % (e1 + e2) =
          z % (mid.prod * (e1 + e2)) := by
        rw [Nat.mul_comm]
        exact Nat.div_add_mod _ _
      rw [ha, Nat.mul_comm]
      exact Nat.div_add_mod z _
    rw [← hzeq, mmul_block_mid mid.prod e1 e2 c1 c2 dU dV dl dr
      (z / (mid.prod * (e1 + e2)))
      (z % (mid.prod * (e1 + e2)) / (e1 + e2))
      (z % (mid.prod * (e1 + e2)) % (e1 + e2)) hc he]
    have hidx1 : z / (mid.prod * (e1 + e2)) * (mid.prod * (e1 + e2)) +
        (z % (mid.prod * (e1 + e2)) / (e1 + e2) * (e1 + e2) +
          z % (mid.prod * (e1 + e2)) % (e1 + e2)) =
        (z / (mid.prod * (e1 + e2)) * mid.prod +
          z % (mid.prod * (e1 + e2)) / (e1 + e2)) * (e1 + e2) +
          z % (mid.prod * (e1 + e2)) % (e1 + e2) := by ring
    rw [hidx1, idx_div _ he, idx_mod _ he]
    by_cases hee : z % (mid.prod * (e1 + e2)) % (e1 + e2) < e1
    · rw [if_pos hee, if_pos hee]
      congr 1
      ring
    · rw [if_neg hee, if_neg hee]
      congr 1
      ring

/-- The final step of the addition invariant: pushing the concatenated
accumulator through the vertically concatenated last tensors yields the
sum of the two chain contractions. -/
theorem hcat_vcat_step (I tl : List ℕ) (c1 c2 : ℕ) (dU dV dA dB : Vec) :
    Tensor.Eqv
      (matdot (hcat ⟨I ++ [c1], dU⟩ ⟨I ++ [c2], dV⟩)
              (vcat ⟨c1 :: tl, dA⟩ ⟨c2 :: tl, dB⟩))
      ⟨I ++ tl, fun z =>
        mmul c1 tl.prod dU dA z + mmul c2 tl.prod dV dB z⟩ := by
  rw [hcat_eq ⟨I ++ [c1], dU⟩ ⟨I ++ [c2], dV⟩ I c1 c2 dU dV rfl rfl,
    vcat_eq _ _ tl c1 c2 dA dB rfl rfl,
    matdot_eq _ _ I tl (c1 + c2) (c1 + c2) rfl rfl]
  refine ⟨rfl, ?_⟩
  intro z hz
  simp only [List.prod_append] at hz
  have hN : 0 < tl.prod := by
    rcases Nat.eq_zero_or_pos tl.prod with h0 | h1
    · rw [h0, Nat.mul_zero] at hz; omega
    · exact h1
  have hj : z % tl.prod < tl.prod := Nat.mod_lt _ hN
  have hzeq : z / tl.prod * tl.prod + z % tl.prod = z := by
    rw [Nat.mul_comm]
    exact Nat.div_add_mod z _
  show mmul (c1 + c2) tl.prod
      (fun z => if z % (c1 + c2) < c1
        then dU (z / (c1 + c2) * c1 + z % (c1 + c2))
        else dV (z / (c1 + c2) * c2 + (z % (c1 + c2) - c1)))
      (fun z => if z < c1 * tl.prod then dA z else dB (z - c1 * tl.prod))
      z =
    mmul c1 tl.prod dU dA z + mmul c2 tl.prod dV dB z
  rw [← hzeq, mmul_block_last tl.prod c1 c2 dU dV dA dB
    (z / tl.prod) (z % tl.prod) hj]

theorem getLastD_irrel {α : Type} (l : List α) (h : l ≠ []) (d d' : α) :
    l.getLastD d = l.getLastD d' := by
  rw [List.getLastD_eq_getLast?, List.getLastD_eq_getLast?,
    List.getLast?_eq_getLast _ h]
  rfl

/-- Shape compatibility of the sites `1 .. L-1` of two chains being
added: equal physical shapes site by site, both chains internally
bond-consistent starting from incoming bonds `c1` and `c2`, and a
shared trailing open-boundary bond of size 1. -/
def tailChain : ℕ → ℕ → List Tensor → List Tensor → Prop
  | c1, c2, [la], [lb] =>
    ∃ tl, la.shape = c1 :: (tl ++ [1]) ∧ lb.shape = c2 :: (tl ++ [1])
  | c1, c2, la :: a2 :: ra, lb :: b2 :: rb =>
    ∃ mid e1 e2, la.shape = c1 :: (mid ++ [e1]) ∧
      lb.shape = c2 :: (mid ++ [e2]) ∧ tailChain e1 e2 (a2 :: ra) (b2 :: rb)
  | _, _, _, _ => False

/-- The workhorse of the addition claim: folding `matdot` over the
block-embedded sum tail (interior `_local_add`s plus the final vertical
concatenation) yields, entrywise, the sum of the two original chain
contractions; the built tail is itself a valid chain whose bond
dimensions are the sums of the operands' bond dimensions. -/
theorem tail_fold_spec :
    ∀ (A B : List Tensor) (c1 c2 : ℕ) (I : List ℕ) (dU dV : Vec)
      (X : Tensor) (SL : List Tensor),
      tailChain c1 c2 A B →
      X.Eqv (hcat ⟨I ++ [c1], dU⟩ ⟨I ++ [c2], dV⟩) →
      SL = List.zipWith localAdd A.dropLast B.dropLast ++
        [vcat (A.getLastD junkT) (B.getLastD junkT)] →
      (SL.headD junkT).shape.headD 0 = c1 + c2 ∧
      firstMismatch SL = none ∧
      SL.map (fun t => t.shape.headD 0) =
        List.zipWith (fun u v => u + v)
          (A.map (fun t => t.shape.headD 0))
          (B.map (fun t => t.shape.headD 0)) ∧
      (List.foldl matdot ⟨I ++ [c1], dU⟩ A).shape =
        (List.foldl matdot ⟨I ++ [c2], dV⟩ B).shape ∧
      (∃ ftl, (List.foldl matdot ⟨I ++ [c1], dU⟩ A).shape =
        I ++ (ftl ++ [1])) ∧
      Tensor.Eqv (List.foldl matdot X SL)
        ⟨(List.foldl matdot ⟨I ++ [c1], dU⟩ A).shape, fun z =>
          (List.foldl matdot ⟨I ++ [c1], dU⟩ A).data z +
          (List.foldl matdot ⟨I ++ [c2], dV⟩ B).data z⟩ := by
  intro A
  induction A with
  | nil =>
    intro B c1 c2 I dU dV X SL htc
    cases B with
    | nil => exact htc.elim
    | cons lb rb => exact htc.elim
  | cons la ra iha =>
    intro B c1 c2 I dU dV X SL htc hX hSL
    cases ra with
    | nil =>
      cases B with
      | nil => exact htc.elim
      | cons lb rb =>
        cases rb with
        | cons b2 rb' => exact htc.elim
        | nil =>
          obtain ⟨tl, hla, hlb⟩ := htc
          obtain ⟨sla, dla⟩ := la
          obtain ⟨slb, dlb⟩ := lb
          simp only at hla hlb
          subst hla; subst hlb
          have hSL2 : SL = [vcat ⟨c1 :: (tl ++ [1]), dla⟩
              ⟨c2 :: (tl ++ [1]), dlb⟩] := by
            rw [hSL]
            simp
          subst hSL2
          rw [vcat_eq _ _ (tl ++ [1]) c1 c2 dla dlb rfl rfl]
          have hmd1 : List.foldl matdot ⟨I ++ [c1], dU⟩
              [⟨c1 :: (tl ++ [1]), dla⟩] =
              ⟨I ++ (tl ++ [1]), mmul c1 (tl ++ [1]).prod dU dla⟩ := by
            rw [List.foldl_cons, List.foldl_nil,
              matdot_eq _ _ I (tl ++ [1]) c1 c1 rfl rfl]
          have hmd2 : List.foldl matdot ⟨I ++ [c2], dV⟩
              [⟨c2 :: (tl ++ [1]), dlb⟩] =
              ⟨I ++ (tl ++ [1]), mmul c2 (tl ++ [1]).prod dV dlb⟩ := by
            rw [List.foldl_cons, List.foldl_nil,
              matdot_eq _ _ I (tl ++ [1]) c2 c2 rfl rfl]
          refine ⟨rfl, rfl, by simp, by rw [hmd1, hmd2],
            ⟨tl, by rw [hmd1]⟩, ?_⟩
          rw [hmd1, hmd2]
          have hstep := hcat_vcat_step I (tl ++ [1]) c1 c2 dU dV dla dlb
          rw [vcat_eq _ _ (tl ++ [1]) c1 c2 dla dlb rfl rfl] at hstep
          have hcg : Tensor.Eqv
              (List.foldl matdot X [⟨(c1 + c2) :: (tl ++ [1]), fun z =>
                if z < c1 * (tl ++ [1]).prod then dla z
                else dlb (z - c1 * (tl ++ [1]).prod)⟩])
              (matdot (hcat ⟨I ++ [c1], dU⟩ ⟨I ++ [c2], dV⟩)
                ⟨(c1 + c2) :: (tl ++ [1]), fun z =>
                  if z < c1 * (tl ++ [1]).prod then dla z
                  else dlb (z - c1 * (tl ++ [1]).prod)⟩) := by
            rw [List.foldl_cons, List.foldl_nil]
            refine matdot_congr_left _ _ _ hX ?_ ?_
            · rw [hcat_eq ⟨I ++ [c1], dU⟩ ⟨I ++ [c2], dV⟩ I c1 c2 dU dV
                rfl rfl]
              show (I ++ [c1 + c2]).getLastD 0 = c1 + c2
              rw [List.getLastD_concat]
            · rw [hcat_eq ⟨I ++ [c1], dU⟩ ⟨I ++ [c2], dV⟩ I c1 c2 dU dV
                rfl rfl]
              show I ++ [c1 + c2] ≠ []
              simp
          exact teqv_trans hcg hstep
    | cons a2 ra' =>
      cases B with
      | nil => exact htc.elim
      | cons lb rb =>
        cases rb with
        | nil => exact htc.elim
        | cons b2 rb' =>
          obtain ⟨mid, e1, e2, hla, hlb, hrest⟩ := htc
          obtain ⟨sla, dla⟩ := la
          obtain ⟨slb, dlb⟩ := lb
          simp only at hla hlb
          subst hla; subst hlb
          -- the primed accumulators
          have h1 : matdot ⟨I ++ [c1], dU⟩ ⟨c1 :: (mid ++ [e1]), dla⟩ =
              ⟨(I ++ mid) ++ [e1], mmul c1 (mid ++ [e1]).prod dU dla⟩ := by
            rw [matdot_eq _ _ I (mid ++ [e1]) c1 c1 rfl rfl,
              List.append_assoc]
          have h2 : matdot ⟨I ++ [c2], dV⟩ ⟨c2 :: (mid ++ [e2]), dlb⟩ =
              ⟨(I ++ mid) ++ [e2], mmul c2 (mid ++ [e2]).prod dV dlb⟩ := by
            rw [matdot_eq _ _ I (mid ++ [e2]) c2 c2 rfl rfl,
              List.append_assoc]
          have hX' : Tensor.Eqv
              (matdot X (localAdd ⟨c1 :: (mid ++ [e1]), dla⟩
                ⟨c2 :: (mid ++ [e2]), dlb⟩))
              (hcat ⟨(I ++ mid) ++ [e1],
                  mmul c1 (mid ++ [e1]).prod dU dla⟩
                ⟨(I ++ mid) ++ [e2],
                  mmul c2 (mid ++ [e2]).prod dV dlb⟩) := by
            have hcg := matdot_congr_left X
              (hcat ⟨I ++ [c1], dU⟩ ⟨I ++ [c2], dV⟩)
              (localAdd ⟨c1 :: (mid ++ [e1]), dla⟩
                ⟨c2 :: (mid ++ [e2]), dlb⟩) hX
              (by
                rw [hcat_eq ⟨I ++ [c1], dU⟩ ⟨I ++ [c2], dV⟩ I c1 c2
                  dU dV rfl rfl,
                  localAdd_eq _ _ mid c1 c2 e1 e2 dla dlb rfl rfl]
                show (I ++ [c1 + c2]).getLastD 0 = c1 + c2
                rw [List.getLastD_concat])
              (by
                rw [hcat_eq ⟨I ++ [c1], dU⟩ ⟨I ++ [c2], dV⟩ I c1 c2
                  dU dV rfl rfl]
                show I ++ [c1 + c2] ≠ []
                simp)
            refine teqv_trans hcg ?_
            have hstep := hcat_localAdd_step I mid c1 c2 e1 e2 dU dV
              dla dlb
            rw [h1, h2] at hstep
            exact hstep
          have hSLne : SL = localAdd ⟨c1 :: (mid ++ [e1]), dla⟩
              ⟨c2 :: (mid ++ [e2]), dlb⟩ ::
              (List.zipWith localAdd (a2 :: ra').dropLast
                (b2 :: rb').dropLast ++
               [vcat ((a2 :: ra').getLastD junkT)
                     ((b2 :: rb').getLastD junkT)]) := by
            have hgl1 : (⟨c1 :: (mid ++ [e1]), dla⟩ :: a2 ::
                ra').getLastD junkT = (a2 :: ra').getLastD junkT := by
              rw [List.getLastD_cons]
              exact getLastD_irrel _ (by simp) _ _
            have hgl2 : (⟨c2 :: (mid ++ [e2]), dlb⟩ :: b2 ::
                rb').getLastD junkT = (b2 :: rb').getLastD junkT := by
              rw [List.getLastD_cons]
              exact getLastD_irrel _ (by simp) _ _
            rw [hSL, hgl1, hgl2]
            simp only [List.dropLast_cons₂, List.zipWith_cons_cons,
              List.cons_append]
          obtain ⟨ih1, ih2, ih3, ih4, ih6, ih5⟩ := iha (b2 :: rb') e1 e2
            (I ++ mid) (mmul c1 (mid ++ [e1]).prod dU dla)
            (mmul c2 (mid ++ [e2]).prod dV dlb)
            (matdot X (localAdd ⟨c1 :: (mid ++ [e1]), dla⟩
              ⟨c2 :: (mid ++ [e2]), dlb⟩))
            (List.zipWith localAdd (a2 :: ra').dropLast
              (b2 :: rb').dropLast ++
             [vcat ((a2 :: ra').getLastD junkT)
                   ((b2 :: rb').getLastD junkT)])
            hrest hX' rfl
          subst hSLne
          have hlaShape : (localAdd ⟨c1 :: (mid ++ [e1]), dla⟩
              ⟨c2 :: (mid ++ [e2]), dlb⟩).shape =
              (c1 + c2) :: (mid ++ [e1 + e2]) := by
            rw [localAdd_eq _ _ mid c1 c2 e1 e2 dla dlb rfl rfl]
          have hlaLast : (localAdd ⟨c1 :: (mid ++ [e1]), dla⟩
              ⟨c2 :: (mid ++ [e2]), dlb⟩).shape.getLastD 0 = e1 + e2 := by
            rw [hlaShape, List.getLastD_cons, List.getLastD_concat]
          refine ⟨?_, ?_, ?_, ?_, ?_, ?_⟩
          · simp only [List.headD_cons]
            rw [hlaShape]
            rfl
          · cases hS : List.zipWith localAdd (a2 :: ra').dropLast
                (b2 :: rb').dropLast ++
               [vcat ((a2 :: ra').getLastD junkT)
                     ((b2 :: rb').getLastD junkT)] with
            | nil => exact absurd hS (by simp)
            | cons s0 srest =>
              rw [hS] at ih1 ih2
              simp only [List.headD_cons] at ih1
              rw [firstMismatch, if_neg (by rw [hlaLast, ih1]; simp),
                ih2]
              rfl
          · simp only [List.map_cons, List.zipWith_cons_cons]
            rw [hlaShape]
            simp only [List.headD_cons]
            exact congrArg (List.cons (c1 + c2)) ih3
          · simp only [List.foldl_cons]
            rw [h1, h2]
            exact ih4
          · obtain ⟨ftl, hftl⟩ := ih6
            refine ⟨mid ++ ftl, ?_⟩
            rw [List.foldl_cons, h1, hftl]
            simp [List.append_assoc]
          · simp only [List.foldl_cons]
            rw [h1, h2]
            exact ih5

/-- A concrete QR collaborator satisfying the factorization property
`matrix = q * r` everywhere: for a wide matrix take `q` the identity and
`r` the matrix, for a tall one take `q` the matrix and `r` the
identity. -/
def qrTriv : QRFun := fun m n dmat =>
  if m ≤ n then (fun z => if z / m = z % m then 1 else 0, dmat)
  else (dmat, fun z => if z / n = z % n then 1 else 0)

theorem qrTriv_spec : QRSpec qrTriv := by
  intro m n d i hi j hj
  rw [qrTriv]
  by_cases hmn : m ≤ n
  · rw [if_pos hmn]
    have hmin : min m n = m := Nat.min_eq_left hmn
    rw [hmin]
    have hcong : ∀ t < m,
        (if (i * m + t) / m = (i * m + t) % m then (1 : ℚ) else 0) *
          d (t * n + j) =
        (if i = t then (1 : ℚ) else 0) * d (t * n + j) := by
      intro t ht
      rw [idx_div i ht, idx_mod i ht]
    calc d (i * n + j)
        = sumf m (fun t => (if i = t then (1 : ℚ) else 0) *
            d (t * n + j)) :=
          (sumf_delta m i hi (fun t => d (t * n + j))).symm
      _ = sumf m (fun t =>
            (if (i * m + t) / m = (i * m + t) % m then (1 : ℚ) else 0) *
              d (t * n + j)) := (sumf_congr hcong).symm
  · rw [if_neg hmn]
    have hmin : min m n = n := Nat.min_eq_right (by omega)
    rw [hmin]
    have hcong : ∀ t < n,
        d (i * n + t) *
          (if (t * n + j) / n = (t * n + j) % n then (1 : ℚ) else 0) =
        d (i * n + t) * (if t = j then (1 : ℚ) else 0) := by
      intro t ht
      rw [idx_div t hj, idx_mod t hj]
    calc d (i * n + j)
        = sumf n (fun t => d (i * n + t) *
            (if t = j then (1 : ℚ) else 0)) :=
          (sumf_delta_right n j hj (fun t => d (i * n + t))).symm
      _ = sumf n (fun t => d (i * n + t) *
            (if (t * n + j) / n = (t * n + j) % n then (1 : ℚ) else 0)) :=
          (sumf_congr hcong).symm

/-!  Claims. -/

theorem tailChain_length :
    ∀ (A B : List Tensor) (c1 c2 : ℕ), tailChain c1 c2 A B →
      A.length = B.length := by
  intro A
  induction A with
  | nil =>
    intro B c1 c2 h
    cases B with
    | nil => exact h.elim
    | cons lb rb => exact h.elim
  | cons la ra ih =>
    intro B c1 c2 h
    cases ra with
    | nil =>
      cases B with
      | nil => exact h.elim
      | cons lb rb =>
        cases rb with
        | nil => rfl
        | cons b2 rb' => exact h.elim
    | cons a2 ra' =>
      cases B with
      | nil => exact h.elim
      | cons lb rb =>
        cases rb with
        | nil => exact h.elim
        | cons b2 rb' =>
          obtain ⟨_, _, _, _, _, hrest⟩ := h
          simpa using ih (b2 :: rb') _ _ hrest

/-- Counterexample for C3: adding two single-site MPAs produces a
two-site chain whose dense array has shape `(1, 1)` rather than the
shape `(1,)` of `a + b`, so `(A+B).to_array() != a + b` at length 1. -/
theorem C3_counterexample :
    (MPArray.add mpaS1A mpaS1B).toOption.map MPArray.len = some 2 ∧
    ((MPArray.add mpaS1A mpaS1B).toOption.bind MPArray.toArray).map
      Tensor.shape = some [1, 1] ∧
    mpaS1A.toArray.map Tensor.shape = some [1] := ⟨rfl, rfl, rfl⟩

/-- Claim C3 (corrected: both chains must have at least 2 sites — at
length 1 the code concatenates the single tensor with itself twice and
represents a different, higher-rank array): for two equal-length MPAs
with matching per-site physical shapes, internally consistent bonds and
open boundaries, `(A+B).to_array()` equals `a + b` entrywise, the bond
dimensions add junction-wise, and addition of MPAs with different
lengths fails. -/
theorem C3_addition (a b : MPArray) (mid0 : List ℕ) (c1 c2 : ℕ)
    (dx dy : Vec) (xs ys : List Tensor)
    (hA : a.ltens = ⟨(1 :: mid0) ++ [c1], dx⟩ :: xs)
    (hB : b.ltens = ⟨(1 :: mid0) ++ [c2], dy⟩ :: ys)
    (htc : tailChain c1 c2 xs ys) :
    (∃ m, a.add b = .ok m ∧
      m.bdims = List.zipWith (fun u v => u + v) a.bdims b.bdims ∧
      ∃ tS tA tB, m.toArray = some tS ∧ a.toArray = some tA ∧
        b.toArray = some tB ∧ tS.shape = tA.shape ∧ tB.shape = tA.shape ∧
        ∀ z < tA.shape.prod, tS.data z = tA.data z + tB.data z) ∧
    (∀ a2 b2 : MPArray, a2.len ≠ b2.len →
      a2.add b2 = .error "AssertionError: length") := by
  have hxs_ne : xs ≠ [] := by
    intro h
    subst h
    cases ys with
    | nil => exact htc.elim
    | cons y1 yt => cases yt <;> exact htc.elim
  have hys_ne : ys ≠ [] := by
    intro h
    subst h
    cases xs with
    | nil => exact htc.elim
    | cons x1 xt => cases xt <;> exact htc.elim
  have hlen : a.len = b.len := by
    have h1 : xs.length = ys.length := tailChain_length xs ys c1 c2 htc
    simp [MPArray.len, hA, hB, h1]
  refine ⟨?_, ?_⟩
  swap
  · intro a2 b2 hne
    rw [MPArray.add, if_neg hne]
  obtain ⟨ih1, ih2, ih3, ih4, ih6, ih5⟩ :=
    tail_fold_spec xs ys c1 c2 (1 :: mid0) dx dy
      (hcat ⟨(1 :: mid0) ++ [c1], dx⟩ ⟨(1 :: mid0) ++ [c2], dy⟩)
      (List.zipWith localAdd xs.dropLast ys.dropLast ++
        [vcat (xs.getLastD junkT) (ys.getLastD junkT)])
      htc (teqv_refl _) rfl
  have hfm : firstMismatch (hcat ⟨(1 :: mid0) ++ [c1], dx⟩
      ⟨(1 :: mid0) ++ [c2], dy⟩ ::
      (List.zipWith localAdd xs.dropLast ys.dropLast ++
        [vcat (xs.getLastD junkT) (ys.getLastD junkT)])) = none := by
    cases hS : List.zipWith localAdd xs.dropLast ys.dropLast ++
        [vcat (xs.getLastD junkT) (ys.getLastD junkT)] with
    | nil => exact absurd hS (by simp)
    | cons s0 srest =>
      rw [hS] at ih1 ih2
      simp only [List.headD_cons] at ih1
      have hclast : (hcat ⟨(1 :: mid0) ++ [c1], dx⟩
          ⟨(1 :: mid0) ++ [c2], dy⟩).shape.getLastD 0 = c1 + c2 := by
        rw [hcat_eq ⟨(1 :: mid0) ++ [c1], dx⟩ ⟨(1 :: mid0) ++ [c2], dy⟩
          (1 :: mid0) c1 c2 dx dy rfl rfl]
        show ((1 :: mid0) ++ [c1 + c2]).getLastD 0 = c1 + c2
        rw [List.getLastD_concat]
      rw [firstMismatch, if_neg (by rw [hclast, ih1]; simp), ih2]
      rfl
  have hges1 : (⟨(1 :: mid0) ++ [c1], dx⟩ :: xs).getLastD junkT =
      xs.getLastD junkT := by
    rw [List.getLastD_cons]
    exact getLastD_irrel _ hxs_ne _ _
  have hges2 : (⟨(1 :: mid0) ++ [c2], dy⟩ :: ys).getLastD junkT =
      ys.getLastD junkT := by
    rw [List.getLastD_cons]
    exact getLastD_irrel _ hys_ne _ _
  have hadd : a.add b = .ok ⟨hcat ⟨(1 :: mid0) ++ [c1], dx⟩
      ⟨(1 :: mid0) ++ [c2], dy⟩ ::
      (List.zipWith localAdd xs.dropLast ys.dropLast ++
        [vcat (xs.getLastD junkT) (ys.getLastD junkT)]),
      none, none⟩ := by
    rw [MPArray.add, if_pos hlen, hA, hB]
    simp only [List.drop_one, List.tail_cons, hges1, hges2]
    simp only [initMPA, hfm]
  refine ⟨_, hadd, ?_, ?_⟩
  · show (List.zipWith localAdd xs.dropLast ys.dropLast ++
      [vcat (xs.getLastD junkT) (ys.getLastD junkT)]).map
        (fun t => t.shape.headD 0) = _
    rw [MPArray.bdims, MPArray.bdims, hA, hB]
    simpa using ih3
  · obtain ⟨ftl, hftl⟩ := ih6
    have hH : 1 ≤ ((List.foldl matdot ⟨(1 :: mid0) ++ [c1], dx⟩
        xs).shape.headD 0) := by
      show 1 ≤ ((List.foldl matdot ⟨(1 :: mid0) ++ [c1], dx⟩
        xs).shape.headD 0)
      rw [hftl]
      rfl
    have hL : ((List.foldl matdot ⟨(1 :: mid0) ++ [c1], dx⟩
        xs).shape.getLastD 1) = 1 := by
      show ((List.foldl matdot ⟨(1 :: mid0) ++ [c1], dx⟩
        xs).shape.getLastD 1) = 1
      rw [hftl]
      have hassoc : (1 :: mid0) ++ (ftl ++ [1]) =
          ((1 :: mid0) ++ ftl) ++ [1] := by
        rw [List.append_assoc]
      rw [hassoc, List.getLastD_concat]
    have hind := index00_congr
      (List.foldl matdot (hcat ⟨(1 :: mid0) ++ [c1], dx⟩
        ⟨(1 :: mid0) ++ [c2], dy⟩)
        (List.zipWith localAdd xs.dropLast ys.dropLast ++
          [vcat (xs.getLastD junkT) (ys.getLastD junkT)]))
      ⟨(List.foldl matdot ⟨(1 :: mid0) ++ [c1], dx⟩ xs).shape, fun z =>
        (List.foldl matdot ⟨(1 :: mid0) ++ [c1], dx⟩ xs).data z +
        (List.foldl matdot ⟨(1 :: mid0) ++ [c2], dy⟩ ys).data z⟩
      ih5 hH hL
    obtain ⟨hindS, hindD⟩ := hind
    refine ⟨index00 (List.foldl matdot (hcat ⟨(1 :: mid0) ++ [c1], dx⟩
        ⟨(1 :: mid0) ++ [c2], dy⟩)
        (List.zipWith localAdd xs.dropLast ys.dropLast ++
          [vcat (xs.getLastD junkT) (ys.getLastD junkT)])),
      index00 (List.foldl matdot ⟨(1 :: mid0) ++ [c1], dx⟩ xs),
      index00 (List.foldl matdot ⟨(1 :: mid0) ++ [c2], dy⟩ ys),
      rfl, ?_, ?_, ?_, ?_, ?_⟩
    · rw [MPArray.toArray, hA]
      rfl
    · rw [MPArray.toArray, hB]
      rfl
    · exact hindS
    · show (List.foldl matdot ⟨(1 :: mid0) ++ [c2], dy⟩
          ys).shape.tail.dropLast =
        (List.foldl matdot ⟨(1 :: mid0) ++ [c1], dx⟩
          xs).shape.tail.dropLast
      rw [show (List.foldl matdot ⟨(1 :: mid0) ++ [c1], dx⟩ xs).shape =
        (List.foldl matdot ⟨(1 :: mid0) ++ [c2], dy⟩ ys).shape from ih4]
    · intro z hz
      have hz' : z < (index00 (List.foldl matdot
          (hcat ⟨(1 :: mid0) ++ [c1], dx⟩ ⟨(1 :: mid0) ++ [c2], dy⟩)
          (List.zipWith localAdd xs.dropLast ys.dropLast ++
            [vcat (xs.getLastD junkT) (ys.getLastD junkT)]))).shape.prod
          := by
        have hsh : (index00 (List.foldl matdot
            (hcat ⟨(1 :: mid0) ++ [c1], dx⟩ ⟨(1 :: mid0) ++ [c2], dy⟩)
            (List.zipWith localAdd xs.dropLast ys.dropLast ++
              [vcat (xs.getLastD junkT) (ys.getLastD junkT)]))).shape =
            (index00 (List.foldl matdot ⟨(1 :: mid0) ++ [c1], dx⟩
              xs)).shape := hindS
        rw [hsh]
        exact hz
      have hmain := hindD z hz'
      have hgl : (List.foldl matdot (hcat ⟨(1 :: mid0) ++ [c1], dx⟩
          ⟨(1 :: mid0) ++ [c2], dy⟩)
          (List.zipWith localAdd xs.dropLast ys.dropLast ++
            [vcat (xs.getLastD junkT) (ys.getLastD junkT)])).shape.getLastD
          1 = 1 := by
        rw [ih5.1]
        exact hL
      have hgl2 : (List.foldl matdot ⟨(1 :: mid0) ++ [c2], dy⟩
          ys).shape.getLastD 1 = 1 := by
        show (List.foldl matdot ⟨(1 :: mid0) ++ [c2], dy⟩
          ys).shape.getLastD 1 = 1
        rw [← ih4]
        exact hL
      show (List.foldl matdot (hcat ⟨(1 :: mid0) ++ [c1], dx⟩
          ⟨(1 :: mid0) ++ [c2], dy⟩)
          (List.zipWith localAdd xs.dropLast ys.dropLast ++
            [vcat (xs.getLastD junkT) (ys.getLastD junkT)])).data
            (z * (List.foldl matdot (hcat ⟨(1 :: mid0) ++ [c1], dx⟩
              ⟨(1 :: mid0) ++ [c2], dy⟩)
              (List.zipWith localAdd xs.dropLast ys.dropLast ++
                [vcat (xs.getLastD junkT)
                  (ys.getLastD junkT)])).shape.getLastD 1) =
        (List.foldl matdot ⟨(1 :: mid0) ++ [c1], dx⟩ xs).data
          (z * (List.foldl matdot ⟨(1 :: mid0) ++ [c1], dx⟩
            xs).shape.getLastD 1) +
        (List.foldl matdot ⟨(1 :: mid0) ++ [c2], dy⟩ ys).data
          (z * (List.foldl matdot ⟨(1 :: mid0) ++ [c2], dy⟩
            ys).shape.getLastD 1)
      rw [hgl, hgl2, hL, Nat.mul_one]
      have hmain' := hmain
      simp only [index00] at hmain'
      rw [hgl, hL, Nat.mul_one] at hmain'
      exact hmain'

/-- Witness for C3: adding the 2-site product chain to itself doubles
the represented array and sums the bond dimensions. -/
theorem C3_addition_witness :
    (∃ m, mpaW2.add mpaW2 = .ok m ∧
      m.bdims = List.zipWith (fun u v => u + v) mpaW2.bdims mpaW2.bdims ∧
      ∃ tS tA tB, m.toArray = some tS ∧ mpaW2.toArray = some tA ∧
        mpaW2.toArray = some tB ∧ tS.shape = tA.shape ∧
        tB.shape = tA.shape ∧
        ∀ z < tA.shape.prod, tS.data z = tA.data z + tB.data z) ∧
    (∀ a2 b2 : MPArray, a2.len ≠ b2.len →
      a2.add b2 = .error "AssertionError: length") :=
  C3_addition mpaW2 mpaW2 [2] 1 1 (fun _ => 1) (fun _ => 1)
    [tensW] [tensW] rfl rfl ⟨[2], rfl, rfl⟩

/-- Counterexample for C1: a zero-dimensional dense array (axis count 0,
an exact multiple of `plegs = 1`) makes `from_array` raise
`AssertionError("Number of remaining legs insufficient")` instead of
returning a chain with `0 // 1 = 0` sites. -/
theorem C1_counterexample :
    fromArray qrJunk 1 [] (fun _ => 1) =
      .error "AssertionError: legs insufficient" := rfl

/-- Claim C1 (corrected: the dense array must have at least one axis,
and `plegs` must be positive — with `ndim = 0` the code raises instead):
for any QR collaborator that factorizes exactly, `from_array(A, plegs)`
succeeds, yields `A.ndim // plegs` sites, is fully left-normalized
(`normal_form == (L-1, L)`), and `to_array` reconstructs `A` exactly. -/
theorem C1_from_array_round_trip (qr : QRFun) (hqr : QRSpec qr)
    (sh : List ℕ) (d : Vec) (p : ℕ) (hp : 0 < p) (hdvd : p ∣ sh.length)
    (hpos : 0 < sh.length) :
    ∃ mpa, fromArray qr p sh d = .ok mpa ∧
      mpa.len = sh.length / p ∧
      mpa.normalForm = (sh.length / p - 1, sh.length / p) ∧
      ∃ t, mpa.toArray = some t ∧ t.shape = sh ∧
        ∀ x < sh.prod, t.data x = d x := by
  have hple : p ≤ sh.length := Nat.le_of_dvd hpos hdvd
  obtain ⟨fs, hok, hne, hlenf, hfm, _, _, hfold0⟩ :=
    efGo_spec qr hqr p hp ((1 :: sh).length) (1 :: sh) d
      (by simp; omega)
      (by
        simp only [List.length_cons]
        have heq : sh.length + 1 - (p + 1) = sh.length - p := by omega
        rw [heq]
        exact Nat.dvd_sub' hdvd (dvd_refl p))
      (by omega)
  have hext : extractFactors qr p (1 :: sh) d = .ok fs := hok
  have hm0 : sh.length % p = 0 := by
    obtain ⟨c, hc⟩ := hdvd
    rw [hc]
    exact Nat.mul_mod_right p c
  have hL : fs.length = sh.length / p := by
    rw [hlenf]
    simp
  have hfa : fromArray qr p sh d =
      .ok ⟨fs, some (fs.length - 1), none⟩ := by
    rw [fromArray, if_neg (by omega), if_neg (by simp [hm0]), hext]
    simp only [initMPA, hfm]
  refine ⟨⟨fs, some (fs.length - 1), none⟩, hfa, hL, ?_, ?_⟩
  · rw [MPArray.normalForm]
    simp only [pyOr_some, pyOr, MPArray.len]
    rw [hL]
    by_cases h0 : sh.length / p - 1 = 0 <;> simp [h0]
  · cases hfs : fs with
    | nil => exact absurd hfs hne
    | cons t0 rest =>
      rw [hfs] at hfold0
      simp only [List.headD_cons, List.tail_cons] at hfold0
      obtain ⟨hshF, hdF⟩ := hfold0
      refine ⟨index00 (rest.foldl matdot t0), ?_, ?_, ?_⟩
      · rfl
      · show (rest.foldl matdot t0).shape.tail.dropLast = sh
        rw [hshF]
        show (sh ++ [1]).dropLast = sh
        exact List.dropLast_concat ..
      · intro x hx
        show (rest.foldl matdot t0).data
          (x * (rest.foldl matdot t0).shape.getLastD 1) = d x
        have hlast : (rest.foldl matdot t0).shape.getLastD 1 = 1 := by
          rw [hshF]
          show (1 :: (sh ++ [1])).getLastD 1 = 1
          rw [List.getLastD_cons, List.getLastD_concat]
        rw [hlast, Nat.mul_one]
        have hxlt : x < (rest.foldl matdot t0).shape.prod := by
          rw [hshF]
          simpa using hx
        exact hdF x hxlt

/-- Witness for C1: `plegs = 1` on a 2 x 2 array with entries
`0, 1, 2, 3`; the exact-QR hypothesis is discharged by `qrTriv`. -/
theorem C1_from_array_round_trip_witness :
    ∃ mpa, fromArray qrTriv 1 [2, 2] (fun i => (i : ℚ)) = .ok mpa ∧
      mpa.len = 2 ∧
      mpa.normalForm = (1, 2) ∧
      ∃ t, mpa.toArray = some t ∧ t.shape = [2, 2] ∧
        ∀ x < ([2, 2] : List ℕ).prod, t.data x = (x : ℚ) :=
  C1_from_array_round_trip qrTriv qrTriv_spec [2, 2] (fun i => (i : ℚ))
    1 (by decide) (by decide) (by decide)

/-- Claim C8 (confirmed): the MPA constructor validates the
bond-dimension adjacency invariant pairwise before any state is stored:
on success the stored state is exactly the input and every junction
matches; on failure the error cites the first offending junction index
and the two mismatched sizes, and no state is produced. -/
theorem C8_init_validation (lt : List Tensor) (ln rn : Option ℕ)
    (hnd : ∀ t ∈ lt, 2 ≤ t.shape.length) :
    (∀ m, initMPA lt ln rn = .ok m →
      m.ltens = lt ∧ m.lnormalized = ln ∧ m.rnormalized = rn ∧
      ∀ i, i + 1 < lt.length →
        (lt.getD i junkT).shape.getLastD 0 =
          (lt.getD (i + 1) junkT).shape.headD 0) ∧
    (∀ i a b, initMPA lt ln rn = .error (i, a, b) →
      i + 1 < lt.length ∧
      a = (lt.getD i junkT).shape.getLastD 0 ∧
      b = (lt.getD (i + 1) junkT).shape.headD 0 ∧ a ≠ b ∧
      ∀ j < i, (lt.getD j junkT).shape.getLastD 0 =
        (lt.getD (j + 1) junkT).shape.headD 0) := by
  clear hnd
  constructor
  · intro m hm
    unfold initMPA at hm
    cases hfm : firstMismatch lt with
    | some e => rw [hfm] at hm; cases hm
    | none =>
      rw [hfm] at hm
      cases hm
      exact ⟨rfl, rfl, rfl, (firstMismatch_none_iff lt).1 hfm⟩
  · intro i a b hm
    unfold initMPA at hm
    cases hfm : firstMismatch lt with
    | some e =>
      rw [hfm] at hm
      cases hm
      exact firstMismatch_some_spec lt i a b hfm
    | none => rw [hfm] at hm; cases hm

/-- Witness for C8: the constructor accepts a matching pair and the
theorem then certifies the stored junction; a mismatched pair fails
citing junction 0 with sizes 1 and 2. -/
theorem C8_init_validation_witness :
    (([tensW, tensW].getD 0 junkT).shape.getLastD 0 =
      ([tensW, tensW].getD 1 junkT).shape.headD 0) ∧
    initMPA [tensW, ⟨[2, 2, 1], fun _ => 0⟩] none none =
      .error (0, 1, 2) :=
  ⟨((C8_init_validation [tensW, tensW] none none (by decide)).1
      ⟨[tensW, tensW], none, none⟩ rfl).2.2.2 0 (by decide), rfl⟩

/-- Claim C4 (code bug): at `normal_form = (0, 1)` on a 3-site chain the
default direction picked by `compress(method='svd')` is `'left'`, whose
pre-normalization must QR-factor 2 sites, while the `'right'` sweep
would need 0 — the opposite of the docstring's "number of sites that
need to be normalized is smaller" rule (the source comparison
`len(self) - rn > ln` compares the sizes of the already-normalized
regions instead of the pending work). -/
theorem C4_default_direction_bug :
    svdDefaultDirection mpaC4 = "left" ∧
    rnormSweepCount mpaC4 1 = 0 ∧
    lnormSweepCount mpaC4 (mpaC4.len - 1) = 2 := by
  exact ⟨rfl, rfl, rfl⟩

/-- Claim C9 (code bug): `_local_dot`'s validation derives the
right-hand contracted-leg count from the type of `axes[0]`
(`hasattr(axes[0], '__len__')`), so for `axes = (0, (1, 2))` the check
passes even though one leg is contracted on the left and two on the
right. -/
theorem C9_local_dot_check_bug :
    localDotCheck (AxSpec.scalar 0, AxSpec.tup [1, 2]) = .ok () ∧
    localDotClegsL (AxSpec.scalar 0, AxSpec.tup [1, 2]) ≠
      trueClegs (AxSpec.tup [1, 2]) := by
  exact ⟨rfl, by decide⟩

/-- Claim C10 (confirmed): `compress` with `method='svd'` and an
explicit direction that is neither `'right'` nor `'left'` returns
`None` and leaves the whole MPA (tensors and normalization metadata)
untouched. -/
theorem C10_unknown_direction {α : Type} [LinearOrderedField α]
    (qr : QRFun) (svd : SVDFun) (norm2 : Norm2Fun α) (maxBdim : ℕ)
    (s : MPArray) (d : String) (h1 : d ≠ "right") (h2 : d ≠ "left") :
    MPArray.compress qr svd norm2 maxBdim "svd" (some d) s =
      .ok (s, none) := by
  rw [MPArray.compress]
  simp [h1, h2]

/-- Witness for C10 with the unrecognized direction `"up"`. -/
theorem C10_unknown_direction_witness :
    MPArray.compress qrJunk svdJunk norm2Junk 1 "svd" (some "up") mpaW2 =
      .ok (mpaW2, none) :=
  C10_unknown_direction qrJunk svdJunk norm2Junk 1 mpaW2 "up"
    (by decide) (by decide)

/-- Counterexample for C7: on the empty MPA, scalar multiplication
raises `IndexError` instead of scaling a local tensor. -/
theorem C7_counterexample :
    MPArray.mul mpaEmpty (PyVal.scalar 2) = .error "IndexError" := rfl

/-- Claim C7 (corrected: the MPA must be nonempty with a valid
left-normalization index): scalar multiplication — also in place —
scales exactly the local tensor at index `lnorm` and leaves every other
local tensor unchanged; multiplying by a non-scalar raises the
unsupported-operand error. -/
theorem C7_scalar_mul (s : MPArray) (c : ℚ)
    (h : s.normalForm.1 < s.len) :
    (∃ s1, s.mul (.scalar c) = .ok s1 ∧ s1.len = s.len ∧
      s1.ltens.get? s.normalForm.1 =
        (s.ltens.get? s.normalForm.1).map (scale c) ∧
      ∀ i, i ≠ s.normalForm.1 → s1.ltens.get? i = s.ltens.get? i) ∧
    (∃ s2, s.imul (.scalar c) = .ok s2 ∧ s2.len = s.len ∧
      s2.ltens.get? s.normalForm.1 =
        (s.ltens.get? s.normalForm.1).map (scale c) ∧
      (∀ i, i ≠ s.normalForm.1 → s2.ltens.get? i = s.ltens.get? i) ∧
      s2.lnormalized = s.lnormalized ∧ s2.rnormalized = s.rnormalized) ∧
    s.mul .nonscalar = .error "NotImplementedError" ∧
    s.imul .nonscalar = .error "NotImplementedError" := by
  have hlen : s.normalForm.1 < s.ltens.length := h
  obtain ⟨t, ht⟩ : ∃ t, s.ltens.get? s.normalForm.1 = some t :=
    ⟨_, List.get?_eq_get hlen⟩
  have hset : s.ltens.take s.normalForm.1 ++ [scale c t] ++
      s.ltens.drop (s.normalForm.1 + 1) =
      s.ltens.set s.normalForm.1 (scale c t) := by
    rw [List.set_eq_take_cons_drop _ hlen]
    simp
  have hmul : s.mul (.scalar c) =
      .ok ⟨s.ltens.take s.normalForm.1 ++ [scale c t] ++
             s.ltens.drop (s.normalForm.1 + 1),
           some s.normalForm.1, some s.normalForm.2⟩ := by
    simp only [MPArray.mul, ht]
  have himul : s.imul (.scalar c) =
      .ok ⟨s.ltens.set s.normalForm.1 (scale c t),
           s.lnormalized, s.rnormalized⟩ := by
    simp only [MPArray.imul, ht]
  refine ⟨⟨_, hmul, ?_, ?_, ?_⟩, ⟨_, himul, ?_, ?_, ?_, rfl, rfl⟩,
    rfl, rfl⟩
  · show (s.ltens.take s.normalForm.1 ++ [scale c t] ++
      s.ltens.drop (s.normalForm.1 + 1)).length = s.ltens.length
    rw [hset]; simp
  · show (s.ltens.take s.normalForm.1 ++ [scale c t] ++
      s.ltens.drop (s.normalForm.1 + 1)).get? s.normalForm.1 = _
    rw [hset, List.get?_set_eq_of_lt _ hlen, ht]
    rfl
  · intro i hi
    show (s.ltens.take s.normalForm.1 ++ [scale c t] ++
      s.ltens.drop (s.normalForm.1 + 1)).get? i = _
    rw [hset]
    exact List.get?_set_ne _ _ (fun hh => hi hh.symm)
  · show (s.ltens.set s.normalForm.1 (scale c t)).length = s.ltens.length
    simp
  · show (s.ltens.set s.normalForm.1 (scale c t)).get? s.normalForm.1 = _
    rw [List.get?_set_eq_of_lt _ hlen, ht]
    rfl
  · intro i hi
    exact List.get?_set_ne _ _ (fun hh => hi hh.symm)

/-- Witness for C7 on a concrete 2-site chain. -/
theorem C7_scalar_mul_witness :
    (∃ s1, mpaW2.mul (.scalar 3) = .ok s1 ∧ s1.len = mpaW2.len ∧
      s1.ltens.get? mpaW2.normalForm.1 =
        (mpaW2.ltens.get? mpaW2.normalForm.1).map (scale 3) ∧
      ∀ i, i ≠ mpaW2.normalForm.1 →
        s1.ltens.get? i = mpaW2.ltens.get? i) ∧
    (∃ s2, mpaW2.imul (.scalar 3) = .ok s2 ∧ s2.len = mpaW2.len ∧
      s2.ltens.get? mpaW2.normalForm.1 =
        (mpaW2.ltens.get? mpaW2.normalForm.1).map (scale 3) ∧
      (∀ i, i ≠ mpaW2.normalForm.1 →
        s2.ltens.get? i = mpaW2.ltens.get? i) ∧
      s2.lnormalized = mpaW2.lnormalized ∧
      s2.rnormalized = mpaW2.rnormalized) ∧
    mpaW2.mul .nonscalar = .error "NotImplementedError" ∧
    mpaW2.imul .nonscalar = .error "NotImplementedError" :=
  C7_scalar_mul mpaW2 3 (by decide)

theorem getD_oob {β : Type} (l : List β) (n : ℕ) (d : β)
    (h : l.length ≤ n) : l.getD n d = d := by
  rw [List.getD_eq_getElem?_getD, List.getElem?_eq_none h]
  rfl

theorem getD_set_self {β : Type} (l : List β) (n : ℕ) (a d : β)
    (h : n < l.length) : (l.set n a).getD n d = a := by
  rw [List.getD_eq_getElem?_getD, List.getElem?_set_self]
  · rfl
  · exact h

theorem getD_set_other {β : Type} (l : List β) (n i : ℕ) (a d : β)
    (h : n ≠ i) : (l.set n a).getD i d = l.getD i d := by
  rw [List.getD_eq_getElem?_getD, List.getD_eq_getElem?_getD,
    List.getElem?_set_ne h]

theorem getD_mem {β : Type} (l : List β) (i : ℕ) (d : β)
    (h : i < l.length) : l.getD i d ∈ l := by
  rw [List.getD_eq_getElem l d h]
  exact List.getElem_mem h

/-- Entry `j+1` of a double update at `j` and `j+1`. -/
theorem set2_getD_hi (l : List Tensor) (j : ℕ) (a b : Tensor)
    (h : j + 1 < l.length) :
    ((l.set j a).set (j + 1) b).getD (j + 1) junkT = b := by
  apply getD_set_self
  rw [List.length_set]
  exact h

/-- Entry `j` of a double update at `j` and `j+1`. -/
theorem set2_getD_mid (l : List Tensor) (j : ℕ) (a b : Tensor)
    (h : j < l.length) :
    ((l.set j a).set (j + 1) b).getD j junkT = a := by
  rw [getD_set_other (l.set j a) (j + 1) j b junkT (by omega)]
  exact getD_set_self l j a junkT h

/-- Any other entry of a double update at `j` and `j+1`. -/
theorem set2_getD_lo (l : List Tensor) (j i : ℕ) (a b : Tensor)
    (hne1 : i ≠ j) (hne2 : i ≠ j + 1) :
    ((l.set j a).set (j + 1) b).getD i junkT = l.getD i junkT := by
  rw [getD_set_other (l.set j a) (j + 1) i b junkT (by omega)]
  exact getD_set_other l j i a junkT (by omega)

/-- Two tensor lists of equal length with equal shapes at every
position: the observable effect of the in-place (`[:]`) sweeps, which
never change any shape. -/
def ShapesEq (a b : List Tensor) : Prop :=
  a.length = b.length ∧
  ∀ i, (a.getD i junkT).shape = (b.getD i junkT).shape

theorem shapesEq_refl (a : List Tensor) : ShapesEq a a :=
  ⟨rfl, fun _ => rfl⟩

theorem shapesEq_trans {a b c : List Tensor} (h1 : ShapesEq a b)
    (h2 : ShapesEq b c) : ShapesEq a c :=
  ⟨h1.1.trans h2.1, fun i => (h1.2 i).trans (h2.2 i)⟩

theorem shapesEq_set (l : List Tensor) (n : ℕ) (v : Tensor)
    (hv : v.shape = (l.getD n junkT).shape) : ShapesEq (l.set n v) l := by
  refine ⟨List.length_set l n v, fun i => ?_⟩
  by_cases hn : n = i
  · subst hn
    by_cases hlt : n < l.length
    · rw [getD_set_self l n v junkT hlt, hv]
    · rw [getD_oob l n junkT (by omega),
        getD_oob (l.set n v) n junkT (by rw [List.length_set]; omega)]
  · rw [getD_set_other l n i v junkT hn]


theorem exFold_snoc {σ : Type} (f : σ → ℕ → Except String σ)
    (l : List ℕ) (a : ℕ) (st : σ) :
    exFold f (l ++ [a]) st =
      match exFold f l st with
      | .error e => .error e
      | .ok st2 => f st2 a := by
  induction l generalizing st with
  | nil =>
    cases h : f st a with
    | error e => simp [exFold, h]
    | ok st2 => simp [exFold, h]
  | cons b rest ih =>
    cases h : f st b with
    | error e => simp [exFold, h]
    | ok st2 =>
      simp only [List.cons_append, exFold, h]
      exact ih st2

theorem pyOr_some_zero (v : ℕ) : pyOr (some v) 0 = v := by
  rw [pyOr_some]
  by_cases h : v = 0
  · rw [if_pos h, h]
  · rw [if_neg h]

theorem cons_headD_tail {l : List ℕ} (h : l ≠ []) :
    l = l.headD 0 :: l.tail := by
  cases l with
  | nil => exact absurd rfl h
  | cons a t => rfl

theorem dropLast_cons_ne {a : ℕ} {l : List ℕ} (h : l ≠ []) :
    (a :: l).dropLast = a :: l.dropLast := by
  cases l with
  | nil => exact absurd rfl h
  | cons b t => rfl

theorem one_le_prod_nat {l : List ℕ} (h : ∀ a ∈ l, 1 ≤ a) :
    1 ≤ l.prod := by
  induction l with
  | nil => exact le_refl 1
  | cons a t ih =>
    rw [List.prod_cons]
    have h1 := h a (List.mem_cons_self a t)
    have h2 := ih (fun x hx => h x (List.mem_cons_of_mem a hx))
    calc 1 = 1 * 1 := rfl
      _ ≤ a * t.prod := Nat.mul_le_mul h1 h2

/-- The QR write-back size condition of one `_lnormalize` step at a
site: the last axis must not exceed the product of the other axes. -/
abbrev guardL (orig : List Tensor) (i : ℕ) : Prop :=
  (orig.getD i junkT).shape.getLastD 0 ≤
    (orig.getD i junkT).shape.dropLast.prod

/-- The QR write-back size condition of one `_rnormalize` step at a
site: the first axis must not exceed the product of the other axes. -/
abbrev guardR (orig : List Tensor) (i : ℕ) : Prop :=
  (orig.getD i junkT).shape.headD 0 ≤
    (orig.getD i junkT).shape.tail.prod

theorem lnormStep_ok (qr : QRFun) (lt : List Tensor) (site : ℕ)
    (h : guardL lt site) :
    ∃ lt2, lnormStep qr lt site = .ok lt2 ∧ ShapesEq lt2 lt := by
  rw [lnormStep, if_pos h]
  exact ⟨_, rfl,
    shapesEq_trans (shapesEq_set _ _ _ rfl) (shapesEq_set _ _ _ rfl)⟩

theorem lnormStep_shapes (qr : QRFun) (lt lt2 : List Tensor) (site : ℕ)
    (h : lnormStep qr lt site = .ok lt2) : ShapesEq lt2 lt := by
  by_cases hg : guardL lt site
  · obtain ⟨lt3, h3, hse⟩ := lnormStep_ok qr lt site hg
    rw [h3] at h
    cases h
    exact hse
  · rw [lnormStep, if_neg hg] at h
    exact Except.noConfusion h

theorem rnormStep_ok (qr : QRFun) (lt : List Tensor) (site : ℕ)
    (h : guardR lt site) :
    ∃ lt2, rnormStep qr lt site = .ok lt2 ∧ ShapesEq lt2 lt := by
  rw [rnormStep, if_pos h]
  exact ⟨_, rfl,
    shapesEq_trans (shapesEq_set _ _ _ rfl) (shapesEq_set _ _ _ rfl)⟩

theorem rnormStep_shapes (qr : QRFun) (lt lt2 : List Tensor) (site : ℕ)
    (h : rnormStep qr lt site = .ok lt2) : ShapesEq lt2 lt := by
  by_cases hg : guardR lt site
  · obtain ⟨lt3, h3, hse⟩ := rnormStep_ok qr lt site hg
    rw [h3] at h
    cases h
    exact hse
  · rw [rnormStep, if_neg hg] at h
    exact Except.noConfusion h

theorem exFold_lnorm_ok (qr : QRFun) (l : List ℕ) (orig : List Tensor) :
    ∀ lt, ShapesEq lt orig → (∀ i ∈ l, guardL orig i) →
      ∃ lt2, exFold (lnormStep qr) l lt = .ok lt2 ∧ ShapesEq lt2 orig := by
  induction l with
  | nil =>
    intro lt hse _
    exact ⟨lt, rfl, hse⟩
  | cons a rest ih =>
    intro lt hse hg
    have hcond : guardL lt a := by
      have hga := hg a (List.mem_cons_self a rest)
      rw [guardL, hse.2 a]
      exact hga
    obtain ⟨ltm, hsm, hsem⟩ := lnormStep_ok qr lt a hcond
    obtain ⟨lt2, h2, hse2⟩ := ih ltm (shapesEq_trans hsem hse)
      (fun i hi => hg i (List.mem_cons_of_mem a hi))
    refine ⟨lt2, ?_, hse2⟩
    rw [exFold, hsm]
    exact h2

theorem exFold_rnorm_ok (qr : QRFun) (l : List ℕ) (orig : List Tensor) :
    ∀ lt, ShapesEq lt orig → (∀ i ∈ l, guardR orig i) →
      ∃ lt2, exFold (rnormStep qr) l lt = .ok lt2 ∧ ShapesEq lt2 orig := by
  induction l with
  | nil =>
    intro lt hse _
    exact ⟨lt, rfl, hse⟩
  | cons a rest ih =>
    intro lt hse hg
    have hcond : guardR lt a := by
      have hga := hg a (List.mem_cons_self a rest)
      rw [guardR, hse.2 a]
      exact hga
    obtain ⟨ltm, hsm, hsem⟩ := rnormStep_ok qr lt a hcond
    obtain ⟨lt2, h2, hse2⟩ := ih ltm (shapesEq_trans hsem hse)
      (fun i hi => hg i (List.mem_cons_of_mem a hi))
    refine ⟨lt2, ?_, hse2⟩
    rw [exFold, hsm]
    exact h2

theorem lnormalize_ok (qr : QRFun) (s : MPArray) (toSite : ℕ)
    (h : toSite < s.len)
    (hg : ∀ i, s.normalForm.1 ≤ i → i < toSite → guardL s.ltens i) :
    ∃ lt, s.lnormalize qr toSite =
        .ok ⟨lt, some toSite, some (max (toSite + 1) s.normalForm.2)⟩ ∧
      ShapesEq lt s.ltens := by
  rw [MPArray.lnormalize, if_pos h]
  obtain ⟨lt2, h2, hse⟩ := exFold_lnorm_ok qr
    (List.range' s.normalForm.1 (toSite - s.normalForm.1)) s.ltens
    s.ltens (shapesEq_refl _)
    (by
      intro i hi
      rw [List.mem_range'_1] at hi
      exact hg i (by omega) (by omega))
  rw [h2]
  exact ⟨lt2, rfl, hse⟩

theorem rnormalize_ok (qr : QRFun) (s : MPArray) (toSite : ℕ)
    (h : 0 < toSite)
    (hg : ∀ i, toSite ≤ i → i < s.normalForm.2 → guardR s.ltens i) :
    ∃ lt, s.rnormalize qr toSite =
        .ok ⟨lt, some (min (toSite - 1) s.normalForm.1), some toSite⟩ ∧
      ShapesEq lt s.ltens := by
  rw [MPArray.rnormalize, if_pos h]
  obtain ⟨lt2, h2, hse⟩ := exFold_rnorm_ok qr
    ((List.range' toSite (s.normalForm.2 - toSite)).reverse) s.ltens
    s.ltens (shapesEq_refl _)
    (by
      intro i hi
      rw [List.mem_reverse, List.mem_range'_1] at hi
      exact hg i (by omega) (by omega))
  rw [h2]
  exact ⟨lt2, rfl, hse⟩

theorem shapesEq_ndims (a b : List Tensor) (he : ShapesEq a b)
    (hb : ∀ t ∈ b, 2 ≤ t.shape.length) : ∀ t ∈ a, 2 ≤ t.shape.length := by
  intro t ht
  obtain ⟨i, hi, hgi⟩ := List.mem_iff_getElem.1 ht
  have h1 : t = a.getD i junkT := by
    rw [List.getD_eq_getElem a junkT hi, hgi]
  have hib : i < b.length := by rw [← he.1]; exact hi
  rw [h1]
  have h2 := he.2 i
  calc 2 ≤ (b.getD i junkT).shape.length := hb _ (getD_mem b i junkT hib)
    _ = (a.getD i junkT).shape.length := by rw [h2]

theorem shapesEq_pos (a b : List Tensor) (he : ShapesEq a b)
    (hb : ∀ t ∈ b, ∀ x ∈ t.shape, 1 ≤ x) :
    ∀ t ∈ a, ∀ x ∈ t.shape, 1 ≤ x := by
  intro t ht
  obtain ⟨i, hi, hgi⟩ := List.mem_iff_getElem.1 ht
  have h1 : t = a.getD i junkT := by
    rw [List.getD_eq_getElem a junkT hi, hgi]
  have hib : i < b.length := by rw [← he.1]; exact hi
  rw [h1, he.2 i]
  exact hb _ (getD_mem b i junkT hib)

/-- Head of the shape after replacing the last axis (shape length at
least 2 keeps the leading axis). -/
theorem headD_dropLast_append (l : List ℕ) (x : ℕ) (h : 2 ≤ l.length) :
    (l.dropLast ++ [x]).headD 0 = l.headD 0 := by
  match l, h with
  | a :: b :: tl, _ => rfl

/-- Shape length after replacing the last axis. -/
theorem length_dropLast_append (l : List ℕ) (x : ℕ) (h : 1 ≤ l.length) :
    (l.dropLast ++ [x]).length = l.length := by
  rw [List.length_append, List.length_dropLast]
  simp only [List.length_cons, List.length_nil]
  omega

theorem getLastD_tail (l : List ℕ) (h : 2 ≤ l.length) :
    l.getLastD 0 = l.tail.getLastD 0 := by
  match l, h with
  | a :: b :: tl, _ =>
    rw [List.tail_cons, List.getLastD_cons]
    exact getLastD_irrel _ (by simp) _ _

theorem matdot_pair_shape (x y : ℕ) (d : Vec) (b : Tensor) :
    (matdot ⟨[x, y], d⟩ b).shape = x :: b.shape.tail := rfl

theorem matdot_pair_shape_r (x y : ℕ) (d : Vec) (a : Tensor) :
    (matdot a ⟨[x, y], d⟩).shape = a.shape.dropLast ++ [y] := rfl

theorem bdims_length (s : MPArray) : s.bdims.length = s.len - 1 := by
  rw [MPArray.bdims, List.length_map, List.length_drop]
  rfl

theorem bdims_getD (s : MPArray) (i : ℕ) (hi : i + 1 < s.len) :
    s.bdims.getD i 0 = (s.ltens.getD (i + 1) junkT).shape.headD 0 := by
  cases hsl : s.ltens with
  | nil =>
    exfalso
    have h0 : s.len = 0 := by rw [MPArray.len, hsl]; rfl
    omega
  | cons h0 tl =>
    have hlen2 : s.len = tl.length + 1 := by rw [MPArray.len, hsl]; rfl
    rw [MPArray.bdims, hsl]
    show (tl.map (fun t => t.shape.headD 0)).getD i 0 =
      (tl.getD i junkT).shape.headD 0
    rw [List.getD_eq_getElem _ _ (by rw [List.length_map]; omega),
      List.getD_eq_getElem _ _ (by omega : i < tl.length), List.getElem_map]

theorem heads_of_bdims_le (s : MPArray) (mb : ℕ)
    (hb : ∀ b ∈ s.bdims, b ≤ mb) :
    ∀ i, 1 ≤ i → i < s.len →
      (s.ltens.getD i junkT).shape.headD 0 ≤ mb := by
  intro i h1 hi
  obtain ⟨ii, rfl⟩ : ∃ ii, i = ii + 1 := ⟨i - 1, by omega⟩
  rw [← bdims_getD s ii hi]
  exact hb _ (getD_mem s.bdims ii 0 (by rw [bdims_length]; omega))

theorem heads_of_bdims_ge (s : MPArray) (mb : ℕ)
    (hb : ∀ b ∈ s.bdims, mb ≤ b) :
    ∀ i, 1 ≤ i → i < s.len →
      mb ≤ (s.ltens.getD i junkT).shape.headD 0 := by
  intro i h1 hi
  obtain ⟨ii, rfl⟩ : ∃ ii, i = ii + 1 := ⟨i - 1, by omega⟩
  rw [← bdims_getD s ii hi]
  exact hb _ (getD_mem s.bdims ii 0 (by rw [bdims_length]; omega))

theorem bdims_le_of_heads (s : MPArray) (mb : ℕ)
    (hh : ∀ i, 1 ≤ i → i < s.len →
      (s.ltens.getD i junkT).shape.headD 0 ≤ mb) :
    ∀ b ∈ s.bdims, b ≤ mb := by
  intro b hb
  obtain ⟨k, hk, hgk⟩ := List.mem_iff_getElem.1 hb
  have hk' : k + 1 < s.len := by
    have hbl := bdims_length s
    omega
  have hbv : s.bdims.getD k 0 = b := by
    rw [List.getD_eq_getElem _ _ hk]
    exact hgk
  rw [← hbv, bdims_getD s k hk']
  exact hh (k + 1) (by omega) hk'

/-- Reported `normal_form` of a state whose two normalization
attributes are set (`x or d` only kicks in at `0`, and the left default
is itself `0`). -/
theorem normalForm_mk (ltl : List Tensor) (a b : ℕ) (hb : b ≠ 0) :
    (⟨ltl, some a, some b⟩ : MPArray).normalForm = (a, b) := by
  simp only [MPArray.normalForm, pyOr_some, Prod.mk.injEq]
  constructor
  · by_cases h0 : a = 0
    · rw [if_pos h0, h0]
    · rw [if_neg h0]
  · rw [if_neg hb]

theorem exFold_shapes (f : List Tensor → ℕ → Except String (List Tensor))
    (hf : ∀ lt lt2 site, f lt site = .ok lt2 → ShapesEq lt2 lt) :
    ∀ (l : List ℕ) (lt lt2 : List Tensor),
      exFold f l lt = .ok lt2 → ShapesEq lt2 lt := by
  intro l
  induction l with
  | nil =>
    intro lt lt2 h
    rw [exFold] at h
    cases h
    exact shapesEq_refl _
  | cons a rest ih =>
    intro lt lt2 h
    rw [exFold] at h
    cases hstep : f lt a with
    | error e =>
      rw [hstep] at h
      exact Except.noConfusion h
    | ok ltm =>
      rw [hstep] at h
      exact shapesEq_trans (ih ltm lt2 h) (hf lt ltm a hstep)

/-- Counterexample for C5: on the bond-consistent 2-site chain with
shapes `(1,2,3)` and `(3,2,1)` — accepted by the constructor — both
normalization sweeps raise `ValueError` in the QR write-back (the
reduced factor cannot fill the old shape), so the sweep never reaches
the metadata update. -/
theorem C5_counterexample :
    mpaOver.lnormalize qrJunk 1 = .error "ValueError: reshape" ∧
    mpaOver.rnormalize qrJunk 1 = .error "ValueError: reshape" := by
  constructor
  · rfl
  · rfl

/-- Claim C5 (corrected): on a bond-consistent chain whose swept sites
satisfy the QR write-back size condition, a left-normalization sweep to
target `m` succeeds and ends with `normal_form = (m, max (m+1) rn)`,
and a right-normalization sweep to target `n` succeeds and ends with
`normal_form = (min (n-1) ln, n)`, where `(ln, rn)` is the previous
`normal_form`.  Without the size condition the sweep raises
`ValueError` and never updates the metadata. -/
theorem C5_sweep_metadata (qr : QRFun) (s : MPArray) (m n : ℕ)
    (hm : m < s.len) (hn : 0 < n)
    (hch : firstMismatch s.ltens = none)
    (hgl : ∀ i, s.normalForm.1 ≤ i → i < m → guardL s.ltens i)
    (hgr : ∀ i, n ≤ i → i < s.normalForm.2 → guardR s.ltens i) :
    (∃ s1, s.lnormalize qr m = .ok s1 ∧
      s1.normalForm = (m, max (m + 1) s.normalForm.2)) ∧
    (∃ s2, s.rnormalize qr n = .ok s2 ∧
      s2.normalForm = (min (n - 1) s.normalForm.1, n)) := by
  constructor
  · obtain ⟨lt, hok, _⟩ := lnormalize_ok qr s m hm hgl
    refine ⟨_, hok, ?_⟩
    rw [normalForm_mk lt m (max (m + 1) s.normalForm.2) (by
      have := Nat.le_max_left (m + 1) s.normalForm.2
      omega)]
  · obtain ⟨lt, hok, _⟩ := rnormalize_ok qr s n hn hgr
    refine ⟨_, hok, ?_⟩
    rw [normalForm_mk lt (min (n - 1) s.normalForm.1) n (by omega)]

/-- Witness for C5 on a concrete 2-site chain. -/
theorem C5_sweep_metadata_witness :
    (∃ s1, mpaW2.lnormalize qrJunk 1 = .ok s1 ∧
      s1.normalForm = (1, max 2 mpaW2.normalForm.2)) ∧
    (∃ s2, mpaW2.rnormalize qrJunk 1 = .ok s2 ∧
      s2.normalForm = (min 0 mpaW2.normalForm.1, 1)) :=
  C5_sweep_metadata qrJunk mpaW2 1 1 (by decide) (by decide) (by decide)
    (fun i _ h2 => by
      have h0 : i = 0 := by omega
      subst h0
      decide)
    (fun i h1 h2 => by
      have hnf : mpaW2.normalForm.2 = 2 := rfl
      rw [hnf] at h2
      have h0 : i = 1 := by omega
      subst h0
      decide)

theorem normalizeKw_left_ok (qr : QRFun) (s : MPArray) (m : ℕ)
    (hm : m < s.len) (hrn : s.normalForm.2 ≤ s.len) :
    s.normalizeKw qr (some m) none =
      (if s.normalForm.1 < m then
        (exFold (lnormStep qr)
            (List.range' s.normalForm.1 (m - s.normalForm.1)) s.ltens).map
          (fun lt => ⟨lt, some m, some (max (m + 1) s.normalForm.2)⟩)
       else .ok s) := by
  have hnogt : ¬ s.normalForm.2 > s.len := by omega
  rw [MPArray.normalizeKw]
  simp only [Option.getD_some, Option.getD_none]
  rw [if_pos hm]
  by_cases hc : s.normalForm.1 < m
  · rw [if_pos hc, MPArray.lnormalize, if_pos hm]
    cases hres : exFold (lnormStep qr)
        (List.range' s.normalForm.1 (m - s.normalForm.1)) s.ltens with
    | error e => simp [Except.map, hres, hc]
    | ok lt => simp [Except.map, hres, hnogt, hc]
  · rw [if_neg hc]
    simp [hnogt, hc]
  · intro h _
    exact Option.noConfusion h

/-- Claim C6 (confirmed): whenever `normalize(left=m)` returns
normally, calling `normalize(left=m')` again with `m' ≤ m` performs no
re-factorization and returns the identical state — same local tensors,
same `(lnorm, rnorm)` metadata. -/
theorem C6_normalize_idempotent (qr : QRFun) (s : MPArray) (m m' : ℕ)
    (hm : m < s.len) (hm' : m' ≤ m) (hrn : s.normalForm.2 ≤ s.len)
    (s1 : MPArray) (h1 : s.normalizeKw qr (some m) none = .ok s1) :
    s1.normalizeKw qr (some m') none = .ok s1 := by
  rw [normalizeKw_left_ok qr s m hm hrn] at h1
  by_cases hc : s.normalForm.1 < m
  · rw [if_pos hc] at h1
    cases hres : exFold (lnormStep qr)
        (List.range' s.normalForm.1 (m - s.normalForm.1)) s.ltens with
    | error e =>
      rw [hres] at h1
      exact Except.noConfusion h1
    | ok lt =>
      rw [hres] at h1
      simp only [Except.map, Except.ok.injEq] at h1
      have hse : ShapesEq lt s.ltens :=
        exFold_shapes (lnormStep qr) (lnormStep_shapes qr) _ _ _ hres
      have hlen : s1.len = s.len := by
        rw [← h1]
        show lt.length = s.ltens.length
        exact hse.1
      have hnf1 : s1.normalForm =
          (m, max (m + 1) s.normalForm.2) := by
        rw [← h1]
        exact normalForm_mk lt m (max (m + 1) s.normalForm.2) (by
          have := Nat.le_max_left (m + 1) s.normalForm.2
          omega)
      rw [normalizeKw_left_ok qr s1 m' (by omega)
        (by rw [hnf1]; show max (m + 1) s.normalForm.2 ≤ s1.len; omega)]
      rw [if_neg (by rw [hnf1]; show ¬ m < m'; omega)]
  · rw [if_neg hc] at h1
    cases h1
    rw [normalizeKw_left_ok qr s m' (by omega) hrn,
      if_neg (by omega)]

/-- Witness for C6: `normalize(left=1)` twice on a 2-site chain. -/
theorem C6_normalize_idempotent_witness :
    ∃ s1, mpaW2.normalizeKw qrJunk (some 1) none = .ok s1 ∧
      s1.normalizeKw qrJunk (some 1) none = .ok s1 :=
  ⟨_, rfl, C6_normalize_idempotent qrJunk mpaW2 1 1 (by decide)
    (by decide) (by decide) _ rfl⟩

/-- Genericity of the SVD collaborator relative to the norm: on a
nonempty matrix the singular spectrum is not identically zero.  A real
SVD violates this exactly on all-zero site matrices, where Python's
error term `norm_2(sv[max_bdim:]) / norm_2(sv)` is `0.0/0.0 = nan`. -/
def SvdSpec {α : Type} [LinearOrderedField α] (svd : SVDFun)
    (norm2 : Norm2Fun α) : Prop :=
  ∀ m n d, 0 < min m n → norm2 (svd m n d).2.1 (min m n) ≠ 0

/-- A norm valuation that is `0` only on empty vectors; satisfies both
`Norm2Spec` and (with any SVD) `SvdSpec`. -/
def norm2One : Norm2Fun ℚ := fun _ n => if n = 0 then 0 else 1

/-- State of the `_compress_svd_r` loop after the first `j` iterations
(or the error raised along the way). -/
def rSweepFold {α : Type} [LinearOrderedField α] (svd : SVDFun)
    (norm2 : Norm2Fun α) (maxBdim : ℕ) (orig : List Tensor) (j : ℕ) :
    Except String (List Tensor × Option α) :=
  exFold (rSweepStep svd norm2 maxBdim) (List.range j) (orig, some 0)

/-- State of the `_compress_svd_l` loop after the first `c` iterations
(sites `len-1` down to `len-c`), or the error raised along the way. -/
def lSweepFold {α : Type} [LinearOrderedField α] (svd : SVDFun)
    (norm2 : Norm2Fun α) (maxBdim : ℕ) (orig : List Tensor) (c : ℕ) :
    Except String (List Tensor × Option α) :=
  exFold (lSweepStep svd norm2 maxBdim)
    ((List.range' (orig.length - c) c).reverse) (orig, some 0)

theorem rSweepFold_succ {α : Type} [LinearOrderedField α] (svd : SVDFun)
    (norm2 : Norm2Fun α) (mb : ℕ) (orig : List Tensor) (j : ℕ) :
    rSweepFold svd norm2 mb orig (j + 1) =
      match rSweepFold svd norm2 mb orig j with
      | .error e => .error e
      | .ok st => rSweepStep svd norm2 mb st j := by
  rw [rSweepFold, rSweepFold, List.range_succ, exFold_snoc]
  cases exFold (rSweepStep svd norm2 mb) (List.range j) (orig, some 0) <;>
    rfl

theorem lSweepFold_succ {α : Type} [LinearOrderedField α] (svd : SVDFun)
    (norm2 : Norm2Fun α) (mb : ℕ) (orig : List Tensor) (c : ℕ)
    (h : c + 1 ≤ orig.length) :
    lSweepFold svd norm2 mb orig (c + 1) =
      match lSweepFold svd norm2 mb orig c with
      | .error e => .error e
      | .ok st => lSweepStep svd norm2 mb st (orig.length - (c + 1)) := by
  rw [lSweepFold, lSweepFold, List.range'_succ _ c 1]
  have he : orig.length - (c + 1) + 1 = orig.length - c := by omega
  rw [he, List.reverse_cons, exFold_snoc]
  cases exFold (lSweepStep svd norm2 mb)
      ((List.range' (orig.length - c) c).reverse) (orig, some 0) <;>
    rfl

/-- One `_compress_svd_r` iteration preserves the loop invariant: it
passes the reshape guard and its `nan` guard, keeps every length, sets
the bond behind the sweep to exactly `max_bdim`, leaves the untouched
tail of the chain intact, and keeps the accumulated error nonnegative
(and zero when no original bond exceeds `max_bdim`). -/
theorem rsweep_step_inv {α : Type} [LinearOrderedField α] (svd : SVDFun)
    (norm2 : Norm2Fun α) (hn2 : Norm2Spec norm2)
    (hsv : SvdSpec svd norm2) (mb : ℕ) (hmb : 1 ≤ mb)
    (orig : List Tensor) (j : ℕ) (lt : List Tensor) (e : α)
    (hj1L : j + 1 < orig.length)
    (hnd : ∀ t ∈ orig, 2 ≤ t.shape.length)
    (hpos : ∀ t ∈ orig, ∀ x ∈ t.shape, 1 ≤ x)
    (hch : ∀ i, i + 1 < orig.length →
      (orig.getD i junkT).shape.getLastD 0 =
        (orig.getD (i + 1) junkT).shape.headD 0)
    (hbge : ∀ i, 1 ≤ i → i < orig.length →
      mb ≤ (orig.getD i junkT).shape.headD 0)
    (hm0 : mb ≤ (orig.getD 0 junkT).shape.dropLast.prod)
    (hlen : lt.length = orig.length)
    (htl : (lt.getD j junkT).shape.tail = (orig.getD j junkT).shape.tail)
    (hup : ∀ i, j < i → i < orig.length →
      lt.getD i junkT = orig.getD i junkT)
    (hhd : ∀ i, 1 ≤ i → i ≤ j → i < orig.length →
      (lt.getD i junkT).shape.headD 0 = mb)
    (hh0 : (lt.getD 0 junkT).shape.headD 0 =
      (orig.getD 0 junkT).shape.headD 0)
    (he0 : 0 ≤ e)
    (hez : (∀ i, 1 ≤ i → i < orig.length →
        (orig.getD i junkT).shape.headD 0 ≤ mb) → e = 0) :
    ∃ lt' e', rSweepStep svd norm2 mb (lt, some e) j = .ok (lt', some e') ∧
      lt'.length = orig.length ∧
      (lt'.getD (j + 1) junkT).shape.tail =
        (orig.getD (j + 1) junkT).shape.tail ∧
      (∀ i, j + 1 < i → i < orig.length →
        lt'.getD i junkT = orig.getD i junkT) ∧
      (∀ i, 1 ≤ i → i ≤ j + 1 → i < orig.length →
        (lt'.getD i junkT).shape.headD 0 = mb) ∧
      (lt'.getD 0 junkT).shape.headD 0 =
        (orig.getD 0 junkT).shape.headD 0 ∧
      0 ≤ e' ∧
      ((∀ i, 1 ≤ i → i < orig.length →
          (orig.getD i junkT).shape.headD 0 ≤ mb) → e' = 0) := by
  have hjL : j < orig.length := by omega
  have hndoj : 2 ≤ (orig.getD j junkT).shape.length :=
    hnd _ (getD_mem orig j junkT hjL)
  have hto : (orig.getD j junkT).shape.tail ≠ [] := by
    intro hnil
    have h := congrArg List.length hnil
    rw [List.length_tail] at h
    simp only [List.length_nil] at h
    omega
  have hcne : (lt.getD j junkT).shape ≠ [] := by
    intro hnil
    rw [hnil] at htl
    exact hto htl.symm
  have hshape : (lt.getD j junkT).shape =
      (lt.getD j junkT).shape.headD 0 ::
        (orig.getD j junkT).shape.tail := by
    rw [← htl]
    exact cons_headD_tail hcne
  have hlt2 : 2 ≤ (lt.getD j junkT).shape.length := by
    rw [hshape]
    have := List.length_pos.2 hto
    simp only [List.length_cons]
    omega
  have hmge : mb ≤ (lt.getD j junkT).shape.dropLast.prod := by
    rw [hshape, dropLast_cons_ne hto, List.prod_cons]
    by_cases hj0 : j = 0
    · subst hj0
      rw [hh0]
      have hone : (orig.getD 0 junkT).shape ≠ [] := by
        intro hn
        rw [hn] at hndoj
        simp at hndoj
      have hd : (orig.getD 0 junkT).shape.dropLast.prod =
          (orig.getD 0 junkT).shape.headD 0 *
            (orig.getD 0 junkT).shape.tail.dropLast.prod := by
        conv_lhs => rw [cons_headD_tail hone]
        rw [dropLast_cons_ne hto, List.prod_cons]
      rw [← hd]
      exact hm0
    · rw [hhd j (by omega) (le_refl j) hjL]
      have hp1 : 1 ≤ (orig.getD j junkT).shape.tail.dropLast.prod := by
        apply one_le_prod_nat
        intro x hx
        refine hpos _ (getD_mem orig j junkT hjL) x ?_
        have h1 : x ∈ (orig.getD j junkT).shape.tail :=
          List.dropLast_subset _ hx
        exact List.mem_of_mem_tail h1
      calc mb = mb * 1 := (Nat.mul_one mb).symm
        _ ≤ mb * (orig.getD j junkT).shape.tail.dropLast.prod :=
          Nat.mul_le_mul_left mb hp1
  have hnval : (lt.getD j junkT).shape.getLastD 0 =
      (orig.getD (j + 1) junkT).shape.headD 0 := by
    rw [getLastD_tail _ hlt2, htl, ← getLastD_tail _ hndoj, hch j hj1L]
  have hnge : mb ≤ (lt.getD j junkT).shape.getLastD 0 := by
    rw [hnval]
    exact hbge (j + 1) (by omega) hj1L
  have hguard : min ((lt.getD j junkT).shape.dropLast.prod) mb =
      min ((lt.getD j junkT).shape.getLastD 0) mb := by
    rw [Nat.min_eq_right hmge, Nat.min_eq_right hnge]
  have hkpos : 0 < min ((lt.getD j junkT).shape.dropLast.prod)
      ((lt.getD j junkT).shape.getLastD 0) := by
    have := Nat.le_min.2 ⟨hmge, hnge⟩
    omega
  have hden := hsv ((lt.getD j junkT).shape.dropLast.prod)
    ((lt.getD j junkT).shape.getLastD 0) (lt.getD j junkT).data hkpos
  simp only [rSweepStep]
  rw [if_pos hguard, if_neg hden]
  refine ⟨_, _, rfl, ?_, ?_, ?_, ?_, ?_, ?_, ?_⟩
  · rw [List.length_set, List.length_set]
    exact hlen
  · rw [set2_getD_hi lt j _ _ (by omega), matdot_pair_shape,
      List.tail_cons, getD_set_other lt j (j + 1) _ junkT (by omega),
      hup (j + 1) (by omega) hj1L]
  · intro i hgt hiL
    rw [set2_getD_lo lt j i _ _ (by omega) (by omega)]
    exact hup i (by omega) hiL
  · intro i h1 hle hiL
    by_cases hi1 : i = j + 1
    · subst hi1
      rw [set2_getD_hi lt j _ _ (by omega), matdot_pair_shape,
        List.headD_cons]
      exact Nat.min_eq_right (Nat.le_min.2 ⟨hmge, hnge⟩)
    · by_cases hij : i = j
      · rw [hij, set2_getD_mid lt j _ _ (by omega)]
        dsimp only
        rw [headD_dropLast_append _ _ hlt2]
        exact hhd j (by omega) (le_refl j) hjL
      · rw [set2_getD_lo lt j i _ _ hij hi1]
        exact hhd i h1 (by omega) hiL
  · by_cases hj0 : j = 0
    · subst hj0
      rw [set2_getD_mid lt 0 _ _ (by omega)]
      dsimp only
      rw [headD_dropLast_append _ _ hlt2]
      exact hh0
    · rw [set2_getD_lo lt j 0 _ _ (by omega) (by omega)]
      exact hh0
  · exact add_nonneg he0 (div_nonneg (hn2.1 _ _) (hn2.1 _ _))
  · intro hble
    have hz := hez hble
    have hnle : (lt.getD j junkT).shape.getLastD 0 ≤ mb := by
      rw [hnval]
      exact hble (j + 1) (by omega) hj1L
    have hk : min ((lt.getD j junkT).shape.dropLast.prod)
        ((lt.getD j junkT).shape.getLastD 0) - mb = 0 := by
      have := min_le_right ((lt.getD j junkT).shape.dropLast.prod)
        ((lt.getD j junkT).shape.getLastD 0)
      omega
    rw [hk, hn2.2, zero_div, add_zero]
    exact hz

/-- The `_compress_svd_r` loop invariant holds after any number of
iterations (in particular the loop never raises under the stated
bond conditions). -/
theorem rsweep_inv {α : Type} [LinearOrderedField α] (svd : SVDFun)
    (norm2 : Norm2Fun α) (hn2 : Norm2Spec norm2)
    (hsv : SvdSpec svd norm2) (mb : ℕ) (hmb : 1 ≤ mb)
    (orig : List Tensor)
    (hnd : ∀ t ∈ orig, 2 ≤ t.shape.length)
    (hpos : ∀ t ∈ orig, ∀ x ∈ t.shape, 1 ≤ x)
    (hch : ∀ i, i + 1 < orig.length →
      (orig.getD i junkT).shape.getLastD 0 =
        (orig.getD (i + 1) junkT).shape.headD 0)
    (hbge : ∀ i, 1 ≤ i → i < orig.length →
      mb ≤ (orig.getD i junkT).shape.headD 0)
    (hm0 : mb ≤ (orig.getD 0 junkT).shape.dropLast.prod) :
    ∀ j, j ≤ orig.length - 1 →
      ∃ lt e, rSweepFold svd norm2 mb orig j = .ok (lt, some e) ∧
        lt.length = orig.length ∧
        (lt.getD j junkT).shape.tail = (orig.getD j junkT).shape.tail ∧
        (∀ i, j < i → i < orig.length →
          lt.getD i junkT = orig.getD i junkT) ∧
        (∀ i, 1 ≤ i → i ≤ j → i < orig.length →
          (lt.getD i junkT).shape.headD 0 = mb) ∧
        (lt.getD 0 junkT).shape.headD 0 =
          (orig.getD 0 junkT).shape.headD 0 ∧
        0 ≤ e ∧
        ((∀ i, 1 ≤ i → i < orig.length →
            (orig.getD i junkT).shape.headD 0 ≤ mb) → e = 0) := by
  intro j
  induction j with
  | zero =>
    intro _
    exact ⟨orig, 0, rfl, rfl, rfl, fun i _ _ => rfl,
      fun i h1 h2 _ => absurd (h1.trans h2) (by decide),
      rfl, le_refl 0, fun _ => rfl⟩
  | succ jj ih =>
    intro hj
    obtain ⟨lt, e, hfold, hlen, htl, hup, hhd, hh0, he0, hez⟩ :=
      ih (by omega)
    obtain ⟨lt', e', hstep, h2, h3, h4, h5, h6, h7, h8⟩ :=
      rsweep_step_inv svd norm2 hn2 hsv mb hmb orig jj lt e (by omega)
        hnd hpos hch hbge hm0 hlen htl hup hhd hh0 he0 hez
    refine ⟨lt', e', ?_, h2, h3, h4, h5, h6, h7, h8⟩
    rw [rSweepFold_succ, hfold]
    exact hstep

/-- One `_compress_svd_l` iteration preserves the mirrored loop
invariant. -/
theorem lsweep_step_inv {α : Type} [LinearOrderedField α] (svd : SVDFun)
    (norm2 : Norm2Fun α) (hn2 : Norm2Spec norm2)
    (hsv : SvdSpec svd norm2) (mb : ℕ) (hmb : 1 ≤ mb)
    (orig : List Tensor) (c : ℕ) (lt : List Tensor) (e : α)
    (hc1 : c + 1 ≤ orig.length - 1)
    (hnd : ∀ t ∈ orig, 2 ≤ t.shape.length)
    (hpos : ∀ t ∈ orig, ∀ x ∈ t.shape, 1 ≤ x)
    (hbge : ∀ i, 1 ≤ i → i < orig.length →
      mb ≤ (orig.getD i junkT).shape.headD 0)
    (hlast : mb ≤ (orig.getD (orig.length - 1) junkT).shape.tail.prod)
    (hlen : lt.length = orig.length)
    (hhd : ∀ i, i < orig.length - c →
      (lt.getD i junkT).shape.headD 0 =
        (orig.getD i junkT).shape.headD 0)
    (hpr : ∀ i, orig.length - c ≤ i → i < orig.length →
      (lt.getD i junkT).shape.headD 0 ≤ mb)
    (hD : 0 < c → (lt.getD (orig.length - (c + 1)) junkT).shape =
      (orig.getD (orig.length - (c + 1)) junkT).shape.dropLast ++ [mb])
    (hE : c = 0 → lt = orig)
    (hF : ∀ i, i < orig.length - (c + 1) →
      lt.getD i junkT = orig.getD i junkT)
    (he0 : 0 ≤ e)
    (hez : (∀ i, 1 ≤ i → i < orig.length →
        (orig.getD i junkT).shape.headD 0 ≤ mb) → e = 0) :
    ∃ lt' e', lSweepStep svd norm2 mb (lt, some e)
        (orig.length - (c + 1)) = .ok (lt', some e') ∧
      lt'.length = orig.length ∧
      (∀ i, i < orig.length - (c + 1) →
        (lt'.getD i junkT).shape.headD 0 =
          (orig.getD i junkT).shape.headD 0) ∧
      (∀ i, orig.length - (c + 1) ≤ i → i < orig.length →
        (lt'.getD i junkT).shape.headD 0 ≤ mb) ∧
      (0 < c + 1 →
        (lt'.getD (orig.length - (c + 1 + 1)) junkT).shape =
          (orig.getD (orig.length - (c + 1 + 1)) junkT).shape.dropLast
            ++ [mb]) ∧
      (c + 1 = 0 → lt' = orig) ∧
      (∀ i, i < orig.length - (c + 1 + 1) →
        lt'.getD i junkT = orig.getD i junkT) ∧
      0 ≤ e' ∧
      ((∀ i, 1 ≤ i → i < orig.length →
          (orig.getD i junkT).shape.headD 0 ≤ mb) → e' = 0) := by
  have hp1 : 1 ≤ orig.length - (c + 1) := by omega
  have hpL : orig.length - (c + 1) < orig.length := by omega
  have hidx2 : orig.length - (c + 1 + 1) =
      orig.length - (c + 1) - 1 := by omega
  have hndop : 2 ≤ (orig.getD (orig.length - (c + 1)) junkT).shape.length :=
    hnd _ (getD_mem orig _ junkT hpL)
  have hndop1 : 2 ≤
      (orig.getD (orig.length - (c + 1) - 1) junkT).shape.length :=
    hnd _ (getD_mem orig _ junkT (by omega))
  have hmval : (lt.getD (orig.length - (c + 1)) junkT).shape.headD 0 =
      (orig.getD (orig.length - (c + 1)) junkT).shape.headD 0 :=
    hhd _ (by omega)
  have hmge : mb ≤ (lt.getD (orig.length - (c + 1)) junkT).shape.headD 0 := by
    rw [hmval]
    exact hbge _ hp1 hpL
  have hnge : mb ≤ (lt.getD (orig.length - (c + 1)) junkT).shape.tail.prod := by
    by_cases hc0 : c = 0
    · subst hc0
      rw [hE rfl]
      exact hlast
    · rw [hD (by omega)]
      have hdne : (orig.getD (orig.length - (c + 1)) junkT).shape.dropLast
          ≠ [] := by
        intro hn
        have h := congrArg List.length hn
        rw [List.length_dropLast] at h
        simp only [List.length_nil] at h
        omega
      obtain ⟨a, l', hdec⟩ : ∃ a l',
          (orig.getD (orig.length - (c + 1)) junkT).shape.dropLast =
            a :: l' := by
        cases hh : (orig.getD (orig.length - (c + 1)) junkT).shape.dropLast
          with
        | nil => exact absurd hh hdne
        | cons a l' => exact ⟨a, l', rfl⟩
      rw [hdec, List.cons_append, List.tail_cons, List.prod_append]
      have hp' : 1 ≤ l'.prod := by
        apply one_le_prod_nat
        intro x hx
        refine hpos _ (getD_mem orig _ junkT hpL) x ?_
        apply List.dropLast_subset
        rw [hdec]
        exact List.mem_cons_of_mem a hx
      calc mb = 1 * mb := (Nat.one_mul mb).symm
        _ ≤ l'.prod * [mb].prod := by
          simp only [List.prod_cons, List.prod_nil, Nat.mul_one]
          exact Nat.mul_le_mul hp' (le_refl mb)
  have hguard : min ((lt.getD (orig.length - (c + 1)) junkT).shape.headD 0)
      mb = min ((lt.getD (orig.length - (c + 1)) junkT).shape.tail.prod)
      mb := by
    rw [Nat.min_eq_right hmge, Nat.min_eq_right hnge]
  have hkpos : 0 < min
      ((lt.getD (orig.length - (c + 1)) junkT).shape.headD 0)
      ((lt.getD (orig.length - (c + 1)) junkT).shape.tail.prod) := by
    have := Nat.le_min.2 ⟨hmge, hnge⟩
    omega
  have hden := hsv ((lt.getD (orig.length - (c + 1)) junkT).shape.headD 0)
    ((lt.getD (orig.length - (c + 1)) junkT).shape.tail.prod)
    (lt.getD (orig.length - (c + 1)) junkT).data hkpos
  simp only [lSweepStep]
  rw [if_pos hguard, if_neg hden]
  refine ⟨_, _, rfl, ?_, ?_, ?_, ?_, ?_, ?_, ?_, ?_⟩
  · rw [List.length_set, List.length_set]
    exact hlen
  · intro i hi
    by_cases hip : i = orig.length - (c + 1) - 1
    · subst hip
      rw [getD_set_self _ _ _ junkT (by rw [List.length_set]; omega),
        matdot_pair_shape_r,
        getD_set_other lt (orig.length - (c + 1))
          (orig.length - (c + 1) - 1) _ junkT (by omega),
        hF (orig.length - (c + 1) - 1) (by omega),
        headD_dropLast_append _ _ hndop1]
    · rw [getD_set_other _ (orig.length - (c + 1) - 1) i _ junkT
          (by omega),
        getD_set_other lt (orig.length - (c + 1)) i _ junkT (by omega)]
      exact hhd i (by omega)
  · intro i hge hiL
    by_cases hip : i = orig.length - (c + 1)
    · subst hip
      rw [getD_set_other _ (orig.length - (c + 1) - 1)
          (orig.length - (c + 1)) _ junkT (by omega),
        getD_set_self lt (orig.length - (c + 1)) _ junkT (by omega)]
      dsimp only
      rw [List.headD_cons]
      exact min_le_right _ _
    · rw [getD_set_other _ (orig.length - (c + 1) - 1) i _ junkT
          (by omega),
        getD_set_other lt (orig.length - (c + 1)) i _ junkT (by omega)]
      exact hpr i (by omega) hiL
  · intro _
    rw [hidx2]
    rw [getD_set_self _ _ _ junkT (by rw [List.length_set]; omega),
      matdot_pair_shape_r,
      getD_set_other lt (orig.length - (c + 1))
        (orig.length - (c + 1) - 1) _ junkT (by omega),
      hF (orig.length - (c + 1) - 1) (by omega),
      Nat.min_eq_right hmge]
  · intro h
    exact absurd h (Nat.succ_ne_zero c)
  · intro i hi
    rw [hidx2] at hi
    rw [getD_set_other _ (orig.length - (c + 1) - 1) i _ junkT
        (by omega),
      getD_set_other lt (orig.length - (c + 1)) i _ junkT (by omega)]
    exact hF i (by omega)
  · exact add_nonneg he0 (div_nonneg (hn2.1 _ _) (hn2.1 _ _))
  · intro hble
    have hz := hez hble
    have hmle : (lt.getD (orig.length - (c + 1)) junkT).shape.headD 0
        ≤ mb := by
      rw [hmval]
      exact hble _ hp1 hpL
    have hk : min ((lt.getD (orig.length - (c + 1)) junkT).shape.headD 0)
        ((lt.getD (orig.length - (c + 1)) junkT).shape.tail.prod)
        - mb = 0 := by
      have := min_le_left
        ((lt.getD (orig.length - (c + 1)) junkT).shape.headD 0)
        ((lt.getD (orig.length - (c + 1)) junkT).shape.tail.prod)
      omega
    rw [hk, hn2.2, zero_div, add_zero]
    exact hz

/-- The `_compress_svd_l` loop invariant holds after any number of
iterations. -/
theorem lsweep_inv {α : Type} [LinearOrderedField α] (svd : SVDFun)
    (norm2 : Norm2Fun α) (hn2 : Norm2Spec norm2)
    (hsv : SvdSpec svd norm2) (mb : ℕ) (hmb : 1 ≤ mb)
    (orig : List Tensor)
    (hnd : ∀ t ∈ orig, 2 ≤ t.shape.length)
    (hpos : ∀ t ∈ orig, ∀ x ∈ t.shape, 1 ≤ x)
    (hbge : ∀ i, 1 ≤ i → i < orig.length →
      mb ≤ (orig.getD i junkT).shape.headD 0)
    (hlast : mb ≤ (orig.getD (orig.length - 1) junkT).shape.tail.prod) :
    ∀ c, c ≤ orig.length - 1 →
      ∃ lt e, lSweepFold svd norm2 mb orig c = .ok (lt, some e) ∧
        lt.length = orig.length ∧
        (∀ i, i < orig.length - c →
          (lt.getD i junkT).shape.headD 0 =
            (orig.getD i junkT).shape.headD 0) ∧
        (∀ i, orig.length - c ≤ i → i < orig.length →
          (lt.getD i junkT).shape.headD 0 ≤ mb) ∧
        (0 < c → (lt.getD (orig.length - (c + 1)) junkT).shape =
          (orig.getD (orig.length - (c + 1)) junkT).shape.dropLast
            ++ [mb]) ∧
        (c = 0 → lt = orig) ∧
        (∀ i, i < orig.length - (c + 1) →
          lt.getD i junkT = orig.getD i junkT) ∧
        0 ≤ e ∧
        ((∀ i, 1 ≤ i → i < orig.length →
            (orig.getD i junkT).shape.headD 0 ≤ mb) → e = 0) := by
  intro c
  induction c with
  | zero =>
    intro _
    exact ⟨orig, 0, rfl, rfl, fun i _ => rfl,
      fun i h1 h2 => absurd h2 (by omega),
      fun h => absurd h (lt_irrefl 0), fun _ => rfl, fun i _ => rfl,
      le_refl 0, fun _ => rfl⟩
  | succ cc ih =>
    intro hc
    obtain ⟨lt, e, hfold, hlen, hhd, hpr, hD, hE, hF, he0, hez⟩ :=
      ih (by omega)
    obtain ⟨lt', e', hstep, h2, h3, h4, h5, h6, h7, h8, h9⟩ :=
      lsweep_step_inv svd norm2 hn2 hsv mb hmb orig cc lt e (by omega)
        hnd hpos hbge hlast hlen hhd hpr hD hE hF he0 hez
    refine ⟨lt', e', ?_, h2, h3, h4, h5, h6, h7, h8, h9⟩
    rw [lSweepFold_succ svd norm2 mb orig cc (by omega), hfold]
    exact hstep

/-- `_compress_svd_r` on a right-normalized chain whose bonds all equal
at least `max_bdim` (and with `max_bdim` not exceeding the open ends'
remaining sizes): succeeds, the error is nonnegative (and zero when no
original bond exceeds `max_bdim`), every resulting bond is at most
`max_bdim`, and the state ends fully left-normalized. -/
theorem compressSvdR_spec {α : Type} [LinearOrderedField α]
    (svd : SVDFun) (norm2 : Norm2Fun α) (hn2 : Norm2Spec norm2)
    (hsv : SvdSpec svd norm2) (mb : ℕ) (hmb : 1 ≤ mb) (s : MPArray)
    (hL : 1 ≤ s.len) (hnf : s.normalForm = (0, 1))
    (hnd : ∀ t ∈ s.ltens, 2 ≤ t.shape.length)
    (hpos : ∀ t ∈ s.ltens, ∀ x ∈ t.shape, 1 ≤ x)
    (hch : ∀ i, i + 1 < s.len →
      (s.ltens.getD i junkT).shape.getLastD 0 =
        (s.ltens.getD (i + 1) junkT).shape.headD 0)
    (hbge : ∀ i, 1 ≤ i → i < s.len →
      mb ≤ (s.ltens.getD i junkT).shape.headD 0)
    (hm0 : mb ≤ (s.ltens.getD 0 junkT).shape.dropLast.prod) :
    ∃ s' err, s.compressSvdR svd norm2 mb = .ok (s', some err) ∧
      0 ≤ err ∧
      ((∀ i, 1 ≤ i → i < s.len →
          (s.ltens.getD i junkT).shape.headD 0 ≤ mb) → err = 0) ∧
      (∀ i, 1 ≤ i → i < s.len →
        (s'.ltens.getD i junkT).shape.headD 0 ≤ mb) ∧
      s'.len = s.len ∧ s'.normalForm = (s.len - 1, s.len) := by
  have hel : s.len = s.ltens.length := rfl
  obtain ⟨lt, e, hfold, hlen, htl, hup, hhd, hh0, he0, hez⟩ :=
    rsweep_inv svd norm2 hn2 hsv mb hmb s.ltens hnd hpos
      (fun i hi => hch i (by omega))
      (fun i h1 hi => hbge i h1 (by omega)) hm0 (s.len - 1) (by omega)
  have hfold' : exFold (rSweepStep svd norm2 mb)
      (List.range (s.len - 1)) (s.ltens, some 0) = .ok (lt, some e) :=
    hfold
  rw [MPArray.compressSvdR, if_pos hnf, hfold']
  refine ⟨⟨lt, some (s.len - 1), some s.len⟩, e, rfl, he0, ?_, ?_, ?_, ?_⟩
  · intro hble
    exact hez (fun i h1 hi => hble i h1 (by omega))
  · intro i h1 hi
    exact le_of_eq (hhd i h1 (by omega) (by omega))
  · show lt.length = s.len
    omega
  · exact normalForm_mk lt (s.len - 1) s.len (by omega)

/-- `_compress_svd_l` on a left-normalized chain: the mirror of
`compressSvdR_spec`, ending fully right-normalized. -/
theorem compressSvdL_spec {α : Type} [LinearOrderedField α]
    (svd : SVDFun) (norm2 : Norm2Fun α) (hn2 : Norm2Spec norm2)
    (hsv : SvdSpec svd norm2) (mb : ℕ) (hmb : 1 ≤ mb) (s : MPArray)
    (hL : 1 ≤ s.len) (hnf : s.normalForm = (s.len - 1, s.len))
    (hnd : ∀ t ∈ s.ltens, 2 ≤ t.shape.length)
    (hpos : ∀ t ∈ s.ltens, ∀ x ∈ t.shape, 1 ≤ x)
    (hbge : ∀ i, 1 ≤ i → i < s.len →
      mb ≤ (s.ltens.getD i junkT).shape.headD 0)
    (hlast : mb ≤ (s.ltens.getD (s.len - 1) junkT).shape.tail.prod) :
    ∃ s' err, s.compressSvdL svd norm2 mb = .ok (s', some err) ∧
      0 ≤ err ∧
      ((∀ i, 1 ≤ i → i < s.len →
          (s.ltens.getD i junkT).shape.headD 0 ≤ mb) → err = 0) ∧
      (∀ i, 1 ≤ i → i < s.len →
        (s'.ltens.getD i junkT).shape.headD 0 ≤ mb) ∧
      s'.len = s.len ∧ s'.normalForm = (0, 1) := by
  have hel : s.len = s.ltens.length := rfl
  obtain ⟨lt, e, hfold, hlen, hhd, hpr, _, _, _, he0, hez⟩ :=
    lsweep_inv svd norm2 hn2 hsv mb hmb s.ltens hnd hpos
      (fun i h1 hi => hbge i h1 (by omega))
      (by
        have hidx : s.ltens.length - 1 = s.len - 1 := by omega
        rw [hidx]
        exact hlast)
      (s.len - 1) (by omega)
  have heq : lSweepFold svd norm2 mb s.ltens (s.len - 1) =
      exFold (lSweepStep svd norm2 mb)
        ((List.range' 1 (s.len - 1)).reverse) (s.ltens, some 0) := by
    rw [lSweepFold]
    have h1 : s.ltens.length - (s.len - 1) = 1 := by omega
    rw [h1]
  rw [heq] at hfold
  rw [MPArray.compressSvdL, if_pos hnf, hfold]
  refine ⟨⟨lt, some 0, some 1⟩, e, rfl, he0, ?_, ?_, ?_, ?_⟩
  · intro hble
    exact hez (fun i h1 hi => hble i h1 (by omega))
  · intro i h1 hi
    exact hpr i (by omega) (by omega)
  · show lt.length = s.len
    omega
  · rfl

/-- `normalize(left=0, right=1)` before a right compression sweep:
succeeds when the swept sites satisfy the QR size condition, changes
no shape, and leaves `normal_form == (0, 1)`. -/
theorem normalizeKw_right_prep (qr : QRFun) (s : MPArray)
    (hlt : s.normalForm.1 < s.normalForm.2)
    (hgr : ∀ i, 1 ≤ i → i < s.normalForm.2 → guardR s.ltens i) :
    ∃ s1, s.normalizeKw qr (some 0) (some 1) = .ok s1 ∧
      ShapesEq s1.ltens s.ltens ∧ s1.normalForm = (0, 1) := by
  have hstep : s.normalizeKw qr (some 0) (some 1) =
      (if s.normalForm.2 > 1 then s.rnormalize qr 1 else .ok s) := by
    rw [MPArray.normalizeKw]
    simp only [Option.getD_some]
    rw [if_pos (by omega : (0 : ℕ) < 1),
      if_neg (by omega : ¬ s.normalForm.1 < 0)]
    intro h _
    exact Option.noConfusion h
  by_cases hc : s.normalForm.2 > 1
  · obtain ⟨lt, hok, hse⟩ := rnormalize_ok qr s 1 (by omega)
      (fun i h1 hi => hgr i h1 hi)
    refine ⟨⟨lt, some (min (1 - 1) s.normalForm.1), some 1⟩, ?_, hse, ?_⟩
    · rw [hstep, if_pos hc]
      exact hok
    · show (⟨lt, some (min (1 - 1) s.normalForm.1), some 1⟩ :
        MPArray).normalForm = (0, 1)
      simp [MPArray.normalForm, pyOr_some, Nat.zero_min]
  · refine ⟨s, ?_, shapesEq_refl _, ?_⟩
    · rw [hstep, if_neg hc]
    · have h1 : s.normalForm.1 = 0 := by omega
      have h2 : s.normalForm.2 = 1 := by omega
      rw [← h1, ← h2]

/-- `normalize(left=len-1, right=len)` before a left compression
sweep: succeeds when the swept sites satisfy the QR size condition,
changes no shape, and leaves `normal_form == (len - 1, len)`. -/
theorem normalizeKw_left_prep (qr : QRFun) (s : MPArray)
    (hL : 1 ≤ s.len) (hlt : s.normalForm.1 < s.normalForm.2)
    (hrn : s.normalForm.2 ≤ s.len)
    (hgl : ∀ i, i < s.len - 1 → guardL s.ltens i) :
    ∃ s1, s.normalizeKw qr (some (s.len - 1)) (some s.len) = .ok s1 ∧
      ShapesEq s1.ltens s.ltens ∧
      s1.normalForm = (s.len - 1, s.len) := by
  have hnogt : ¬ s.normalForm.2 > s.len := by omega
  by_cases hc : s.normalForm.1 < s.len - 1
  · obtain ⟨lt, hok, hse⟩ := lnormalize_ok qr s (s.len - 1) (by omega)
      (fun i _ hi => hgl i hi)
    refine ⟨⟨lt, some (s.len - 1),
      some (max (s.len - 1 + 1) s.normalForm.2)⟩, ?_, hse, ?_⟩
    · rw [MPArray.normalizeKw]
      simp only [Option.getD_some]
      rw [if_pos (by omega : s.len - 1 < s.len), if_pos hc, hok]
      simp [hnogt]
      intro h _
      exact Option.noConfusion h
    · show (⟨lt, some (s.len - 1),
        some (max (s.len - 1 + 1) s.normalForm.2)⟩ :
        MPArray).normalForm = (s.len - 1, s.len)
      rw [normalForm_mk lt (s.len - 1)
        (max (s.len - 1 + 1) s.normalForm.2) (by omega)]
      have hmax : max (s.len - 1 + 1) s.normalForm.2 = s.len := by omega
      rw [hmax]
  · refine ⟨s, ?_, shapesEq_refl _, ?_⟩
    · rw [MPArray.normalizeKw]
      simp only [Option.getD_some]
      rw [if_pos (by omega : s.len - 1 < s.len), if_neg hc]
      simp [hnogt]
      intro h _
      exact Option.noConfusion h
    · have h1 : s.normalForm.1 = s.len - 1 := by omega
      have h2 : s.normalForm.2 = s.len := by omega
      rw [← h1, ← h2]

/-- Counterexample to C2 as stated for every MPA: on the empty MPA,
`compress(1, method='svd')` (default direction resolves to `'right'`)
raises `AssertionError` in `_compress_svd_r` instead of compressing. -/
theorem C2_counterexample :
    mpaEmpty.compress qrJunk svdJunk norm2Junk 1 "svd" none =
      .error "AssertionError: compress svd r" := by
  rfl

/-- Claim C2 (corrected): on a nonempty MPA with at least two legs and
no zero-sized axis per site, pairwise-matching bonds, sane
normalization metadata, QR-compatible interior sites, bonds that
`max_bdim` does not exceed (otherwise the sliced SVD factor fails to
reshape and numpy raises `ValueError`), and a generically nonzero
singular spectrum (otherwise Python's error estimate is `nan`),
`compress(max_bdim, method='svd')` succeeds for both sweep directions:
every bond dimension of the result is at most `max_bdim`; the returned
relative error is nonnegative and equals `0` whenever `max_bdim` is at
least every original bond dimension; and the final normalization state
is `(L-1, L)` after the right sweep and `(0, 1)` after the left sweep.
(On the empty MPA both sweeps raise `AssertionError` instead.) -/
theorem C2_compress {α : Type} [LinearOrderedField α] (qr : QRFun)
    (svd : SVDFun) (norm2 : Norm2Fun α) (hn2 : Norm2Spec norm2)
    (hsv : SvdSpec svd norm2) (mb : ℕ) (hmb : 1 ≤ mb) (s : MPArray)
    (hL : 1 ≤ s.len)
    (hlt : s.normalForm.1 < s.normalForm.2)
    (hrn : s.normalForm.2 ≤ s.len)
    (hnd : ∀ t ∈ s.ltens, 2 ≤ t.shape.length)
    (hpos : ∀ t ∈ s.ltens, ∀ x ∈ t.shape, 1 ≤ x)
    (hch : firstMismatch s.ltens = none)
    (hbge : ∀ b ∈ s.bdims, mb ≤ b)
    (hgl : ∀ i, i < s.len - 1 → guardL s.ltens i)
    (hgr : ∀ i, 1 ≤ i → i < s.normalForm.2 → guardR s.ltens i)
    (hm0 : mb ≤ (s.ltens.getD 0 junkT).shape.dropLast.prod)
    (hlast : mb ≤ (s.ltens.getD (s.len - 1) junkT).shape.tail.prod) :
    (∃ s' err, s.compress qr svd norm2 mb "svd" (some "right") =
        .ok (s', some (some err)) ∧ 0 ≤ err ∧
      ((∀ b ∈ s.bdims, b ≤ mb) → err = 0) ∧
      (∀ b ∈ s'.bdims, b ≤ mb) ∧ s'.len = s.len ∧
      s'.normalForm = (s.len - 1, s.len)) ∧
    (∃ s' err, s.compress qr svd norm2 mb "svd" (some "left") =
        .ok (s', some (some err)) ∧ 0 ≤ err ∧
      ((∀ b ∈ s.bdims, b ≤ mb) → err = 0) ∧
      (∀ b ∈ s'.bdims, b ≤ mb) ∧ s'.len = s.len ∧
      s'.normalForm = (0, 1)) := by
  have he1 : s.len = s.ltens.length := rfl
  have hbge' := heads_of_bdims_ge s mb hbge
  constructor
  · obtain ⟨s1, hok, hse, hnf1⟩ := normalizeKw_right_prep qr s hlt hgr
    have he2 : s1.len = s1.ltens.length := rfl
    have hlen1 : s1.len = s.len := hse.1
    have hnd1 : ∀ t ∈ s1.ltens, 2 ≤ t.shape.length :=
      shapesEq_ndims _ _ hse hnd
    have hpos1 : ∀ t ∈ s1.ltens, ∀ x ∈ t.shape, 1 ≤ x :=
      shapesEq_pos _ _ hse hpos
    have hch1 : ∀ i, i + 1 < s1.len →
        (s1.ltens.getD i junkT).shape.getLastD 0 =
          (s1.ltens.getD (i + 1) junkT).shape.headD 0 := by
      intro i hi
      rw [hse.2 i, hse.2 (i + 1)]
      exact (firstMismatch_none_iff s.ltens).1 hch i (by omega)
    have hbge1 : ∀ i, 1 ≤ i → i < s1.len →
        mb ≤ (s1.ltens.getD i junkT).shape.headD 0 := by
      intro i h1 hi
      rw [hse.2 i]
      exact hbge' i h1 (by omega)
    have hm01 : mb ≤ (s1.ltens.getD 0 junkT).shape.dropLast.prod := by
      rw [hse.2 0]
      exact hm0
    obtain ⟨s', err, hr, herr0, herrz, hheads, hlen', hnf'⟩ :=
      compressSvdR_spec svd norm2 hn2 hsv mb hmb s1 (by omega) hnf1
        hnd1 hpos1 hch1 hbge1 hm01
    have hcomp : s.compress qr svd norm2 mb "svd" (some "right") =
        .ok (s', some (some err)) := by
      have hstep : s.compress qr svd norm2 mb "svd" (some "right") =
          match s.normalizeKw qr (some 0) (some 1) with
          | .error e => .error e
          | .ok s2 => (s2.compressSvdR svd norm2 mb).map
              (fun p => (p.1, some p.2)) := rfl
      rw [hstep, hok]
      show (s1.compressSvdR svd norm2 mb).map (fun p => (p.1, some p.2)) =
        .ok (s', some (some err))
      rw [hr]
      rfl
    refine ⟨s', err, hcomp, herr0, ?_, ?_, ?_, ?_⟩
    · intro hble
      apply herrz
      intro i h1 hi
      rw [hse.2 i]
      exact heads_of_bdims_le s mb hble i h1 (by omega)
    · exact bdims_le_of_heads s' mb
        (fun i h1 hi => hheads i h1 (by omega))
    · omega
    · rw [hnf', hlen1]
  · obtain ⟨s1, hok, hse, hnf1⟩ := normalizeKw_left_prep qr s hL hlt hrn hgl
    have he2 : s1.len = s1.ltens.length := rfl
    have hlen1 : s1.len = s.len := hse.1
    have hnd1 : ∀ t ∈ s1.ltens, 2 ≤ t.shape.length :=
      shapesEq_ndims _ _ hse hnd
    have hpos1 : ∀ t ∈ s1.ltens, ∀ x ∈ t.shape, 1 ≤ x :=
      shapesEq_pos _ _ hse hpos
    have hbge1 : ∀ i, 1 ≤ i → i < s1.len →
        mb ≤ (s1.ltens.getD i junkT).shape.headD 0 := by
      intro i h1 hi
      rw [hse.2 i]
      exact hbge' i h1 (by omega)
    have hnf1' : s1.normalForm = (s1.len - 1, s1.len) := by
      rw [hnf1, hlen1]
    have hlast1 : mb ≤ (s1.ltens.getD (s1.len - 1) junkT).shape.tail.prod := by
      have hidx : s1.len - 1 = s.len - 1 := by omega
      rw [hidx, hse.2 (s.len - 1)]
      exact hlast
    obtain ⟨s', err, hr, herr0, herrz, hheads, hlen', hnf'⟩ :=
      compressSvdL_spec svd norm2 hn2 hsv mb hmb s1 (by omega) hnf1'
        hnd1 hpos1 hbge1 hlast1
    have hcomp : s.compress qr svd norm2 mb "svd" (some "left") =
        .ok (s', some (some err)) := by
      have hstep : s.compress qr svd norm2 mb "svd" (some "left") =
          match s.normalizeKw qr (some (s.len - 1)) (some s.len) with
          | .error e => .error e
          | .ok s2 => (s2.compressSvdL svd norm2 mb).map
              (fun p => (p.1, some p.2)) := rfl
      rw [hstep, hok]
      show (s1.compressSvdL svd norm2 mb).map (fun p => (p.1, some p.2)) =
        .ok (s', some (some err))
      rw [hr]
      rfl
    refine ⟨s', err, hcomp, herr0, ?_, ?_, ?_, ?_⟩
    · intro hble
      apply herrz
      intro i h1 hi
      rw [hse.2 i]
      exact heads_of_bdims_le s mb hble i h1 (by omega)
    · exact bdims_le_of_heads s' mb
        (fun i h1 hi => hheads i h1 (by omega))
    · omega
    · exact hnf'

/-- Witness for C2 on the concrete 2-site chain `mpaW2` with
`max_bdim = 1` (equal to its only bond, so the sweep truncates
nothing and the theorem certifies a zero error). -/
theorem C2_compress_witness :
    (∃ s' err, mpaW2.compress qrJunk svdJunk norm2One 1 "svd"
        (some "right") = .ok (s', some (some err)) ∧ 0 ≤ err ∧
      ((∀ b ∈ mpaW2.bdims, b ≤ 1) → err = 0) ∧
      (∀ b ∈ s'.bdims, b ≤ 1) ∧ s'.len = mpaW2.len ∧
      s'.normalForm = (mpaW2.len - 1, mpaW2.len)) ∧
    (∃ s' err, mpaW2.compress qrJunk svdJunk norm2One 1 "svd"
        (some "left") = .ok (s', some (some err)) ∧ 0 ≤ err ∧
      ((∀ b ∈ mpaW2.bdims, b ≤ 1) → err = 0) ∧
      (∀ b ∈ s'.bdims, b ≤ 1) ∧ s'.len = mpaW2.len ∧
      s'.normalForm = (0, 1)) :=
  C2_compress qrJunk svdJunk norm2One
    ⟨fun d n => by by_cases h : n = 0 <;> simp [norm2One, h],
     fun d => rfl⟩
    (fun m n d h => by
      simp only [norm2One]
      rw [if_neg (by omega)]
      exact one_ne_zero)
    1 (by decide) mpaW2 (by decide) (by decide) (by decide) (by decide)
    (by decide) (by decide) (by decide)
    (fun i hi => by
      have h0 : i = 0 := by
        have he : mpaW2.len = 2 := rfl
        rw [he] at hi
        omega
      subst h0
      decide)
    (fun i h1 h2 => by
      have h0 : i = 1 := by
        have he : mpaW2.normalForm.2 = 2 := rfl
        rw [he] at h2
        omega
      subst h0
      decide)
    (by decide) (by decide)
